import Mathlib

/-
Verification of the mseedindex indexing engine (src/src/mseedindex.c, v2.7).

This file shallowly embeds the parts of mseedindex.c that the claims are
about: the per-file section aggregation loop in main() (lines 228-400), the
time index construction (AddTimeIndex, lines 430-468), and the database
reconciliation functions SyncPostgresFileSeries (lines 585-1016) and
SyncSQLiteFileSeries (lines 1213-1677).

Modelling conventions:
- hptime_t is Int.  In libmseed 2.x an hptime is an integer count of
  1/HPTMODULUS seconds with HPTMODULUS = 1000000, and MS_EPOCH2HPTIME(x)
  multiplies by HPTMODULUS.  The libmseed sources are an external
  dependency of this repository (treated as the decoder contract); only
  the two constants and the record attributes the engine reads are used.
- time_t values (file modification time, scan time, updated) are Int
  seconds.
- MD5 is external (md5.c); a section digest is modelled as the
  concatenation of the raw record byte sequences fed to md5_append, which
  is sound for every claim here since the program only ever compares
  digests for equality.
- The MSTraceList span machinery (mstl_addmsr) is external libmseed code;
  spans, timespans and timerates columns are not modelled because no claim
  refers to their contents.
- Records decoded by ms_readmsr are modelled as a list of
  (file position, record) pairs; ms_readmsr reports the byte position of
  each record it returns, and with skip-non-data the positions of
  consecutive records may leave gaps.
-/

namespace Mseedindex

/-- Modulus of libmseed 2.x high-precision times: hptime counts microseconds. -/
def hptmodulus : Int := 1000000

/-- MS_EPOCH2HPTIME (3600), the hard-coded sub-index interval of one hour
used at mseedindex.c lines 296, 350-352. -/
def hourHpt : Int := 3600 * hptmodulus

/-- HPTERROR sentinel of libmseed, used to initialize prevstarttime and
nextindex in main() and the file extents in the sync functions. -/
def hpterror : Int := -2145916800000000

/-- Model of the decoded MSRecord attributes read by the engine
(mseedindex.c main loop).  starttime is msr->starttime, endtime is
msr_endtime (msr) as computed by the external decoder, raw stands for the
msr->reclen raw record bytes at msr->record. -/
structure MSRecord where
  network : String
  station : String
  location : String
  channel : String
  dataquality : Char
  starttime : Int
  endtime : Int
  samprate : Rat
  samplecnt : Int
  reclen : Int
  raw : List Nat
deriving Repr, DecidableEq

/-- One entry of the struct timeindex linked list (mseedindex.c lines 133-138). -/
structure TimeIndexEntry where
  time : Int
  byteoffset : Int
deriving Repr, DecidableEq

/-- Specification-only summary of one record aggregated into a section:
its file position, its reclen and its start time.  The C program does not
store this list; it is carried here so that per-section claims about
"the records aggregated into S" can be stated. -/
structure SectionRecord where
  offset : Int
  reclen : Int
  starttime : Int
deriving Repr, DecidableEq

/-- Model of one section: the MSTrace identity fields the reconciler reads
(network, station, location, channel, dataquality, samprate from the first
record) together with struct sectiondetails (mseedindex.c lines 140-152).
timeorderrecords is the C int flag (1 in order, 0 not).  digestbytes is the
byte stream fed to the MD5 accumulator.  records is specification-only. -/
structure SectionDetails where
  network : String
  station : String
  location : String
  channel : String
  dataquality : Char
  samprate : Rat
  startoffset : Int
  endoffset : Int
  earliest : Int
  latest : Int
  updated : Int
  timeorderrecords : Nat
  tindex : List TimeIndexEntry
  digestbytes : List Nat
  records : List SectionRecord
deriving Repr, DecidableEq, Inhabited

/-- State of the per-file record loop in main() (mseedindex.c lines 249-379):
the completed sections in file order, the current open section (cmst with its
attached sectiondetails), prevfilepos, prevstarttime and nextindex. -/
structure ScanState where
  closed : List SectionDetails
  cmst : Option SectionDetails
  prevfilepos : Int
  prevstarttime : Int
  nextindex : Int
deriving Repr, DecidableEq

/-- Test of mst_findmatch (cmst, msr->dataquality, msr->network, msr->station,
msr->location, msr->channel) against the current trace (mseedindex.c lines
261-265): the record matches iff data quality and the four identifier codes
all agree. -/
def mst_findmatch (c : SectionDetails) (msr : MSRecord) : Bool :=
  c.dataquality == msr.dataquality && c.network == msr.network &&
    c.station == msr.station && c.location == msr.location &&
    c.channel == msr.channel

/-- AddTimeIndex (mseedindex.c lines 430-468) appends a new entry at the end
of the time index chain. -/
def AddTimeIndex (tindex : List TimeIndexEntry) (time byteoffset : Int) :
    List TimeIndexEntry :=
  tindex ++ [{ time := time, byteoffset := byteoffset }]

/-- Closed form of the loop `while (nextindex < endtime) nextindex +=
MS_EPOCH2HPTIME (3600)` (mseedindex.c lines 295-296 and 351-352): the least
value nextindex + k * hour (k ≥ 0) that is ≥ endtime. -/
def advanceNextIndex (nextindex endtime : Int) : Int :=
  if nextindex < endtime then
    nextindex + hourHpt * ((endtime - nextindex + hourHpt - 1) / hourHpt)
  else nextindex

/-- Section opened from record msr at file position filepos (mseedindex.c
lines 314-375): identifiers copied from the record, extents
(filepos, filepos + reclen - 1), earliest/latest from the record,
updated = file modification time, timeorderrecords = 1, time index seeded
with (starttime, filepos), digest initialized with the raw record.
mst_addmsr bookkeeping of cmst->endtime/samplecnt is omitted: the
reconciler never reads those fields (rows use sectiondetails extents). -/
def newSection (filemodtime : Int) (filepos : Int) (msr : MSRecord) :
    SectionDetails :=
  { network := msr.network
    station := msr.station
    location := msr.location
    channel := msr.channel
    dataquality := msr.dataquality
    samprate := msr.samprate
    startoffset := filepos
    endoffset := filepos + msr.reclen - 1
    earliest := msr.starttime
    latest := msr.endtime
    updated := filemodtime
    timeorderrecords := 1
    tindex := AddTimeIndex [] msr.starttime filepos
    digestbytes := msr.raw
    records := [{ offset := filepos, reclen := msr.reclen,
                  starttime := msr.starttime }] }

/-- Extension of the current section by record msr at position filepos
(mseedindex.c lines 268-310): new end offset filepos + reclen - 1,
earliest/latest updated, timeorderrecords cleared when
msr->starttime <= prevstarttime, a time index entry appended when the
record end time crosses nextindex, and the raw bytes appended to the
digest. -/
def extendCurrent (st : ScanState) (c : SectionDetails) (filepos : Int)
    (msr : MSRecord) : ScanState :=
  let endtime := msr.endtime
  let sd : SectionDetails :=
    { c with
      endoffset := filepos + msr.reclen - 1
      earliest := if msr.starttime < c.earliest then msr.starttime else c.earliest
      latest := if endtime > c.latest then endtime else c.latest
      timeorderrecords :=
        if msr.starttime ≤ st.prevstarttime then 0 else c.timeorderrecords
      tindex :=
        if endtime > st.nextindex then AddTimeIndex c.tindex msr.starttime filepos
        else c.tindex
      digestbytes := c.digestbytes ++ msr.raw
      records := c.records ++ [{ offset := filepos, reclen := msr.reclen,
                                 starttime := msr.starttime }] }
  { closed := st.closed
    cmst := some sd
    prevfilepos := filepos
    prevstarttime := msr.starttime
    nextindex := advanceNextIndex st.nextindex endtime }

/-- One iteration of the record loop in main() (mseedindex.c lines 256-378).
The current section is extended iff mst_findmatch returns the current trace
and `filepos == (prevfilepos + msr->reclen)` (line 268); otherwise a new
section is opened (closing the current one, if any) and nextindex is reset
from the new record (lines 350-352). -/
def processRecord (filemodtime : Int) (st : ScanState) (filepos : Int)
    (msr : MSRecord) : ScanState :=
  match st.cmst with
  | some c =>
    if mst_findmatch c msr && filepos == st.prevfilepos + msr.reclen then
      extendCurrent st c filepos msr
    else
      { closed := st.closed ++ [c]
        cmst := some (newSection filemodtime filepos msr)
        prevfilepos := filepos
        prevstarttime := msr.starttime
        nextindex := advanceNextIndex (msr.starttime + hourHpt) msr.endtime }
  | none =>
      { closed := st.closed
        cmst := some (newSection filemodtime filepos msr)
        prevfilepos := filepos
        prevstarttime := msr.starttime
        nextindex := advanceNextIndex (msr.starttime + hourHpt) msr.endtime }

/-- Initial per-file state (mseedindex.c lines 249-251): no open section,
prevfilepos 0, prevstarttime HPTERROR; nextindex starts at HPTERROR. -/
def initScanState : ScanState :=
  { closed := []
    cmst := none
    prevfilepos := 0
    prevstarttime := hpterror
    nextindex := hpterror }

/-- Full per-file scan: folds the record loop over the decoded records (in
file order, each with its byte position) and closes the last open section at
end of stream.  Result: the sections of the file in file order, i.e. the
MSTraceGroup trace list that the Sync functions later walk. -/
def scanFile (filemodtime : Int) (recs : List (Int × MSRecord)) :
    List SectionDetails :=
  let fin := recs.foldl (fun st pr => processRecord filemodtime st pr.1 pr.2)
    initScanState
  fin.closed ++ fin.cmst.toList

/-- Well-formedness of a decoded record stream, from the ms_readmsr reader
contract: positions start at or after byte 0, every record is at least one
byte long, consecutive records do not overlap (a later record starts at or
after the end of the previous one; a strict gap is skipped non-data), and
the decoder-derived end time is never before the start time. -/
def wfStream : List (Int × MSRecord) → Bool
  | [] => true
  | (p, r) :: rest =>
    0 ≤ p && 1 ≤ r.reclen && r.starttime ≤ r.endtime &&
      (match rest with
       | [] => true
       | (q, _) :: _ => p + r.reclen ≤ q) &&
      wfStream rest

/-- Row returned by the preservation-candidate SELECT
`SELECT network,station,location,channel,quality,hash,updated FROM table
WHERE ...` (mseedindex.c lines 699-703 and 1331-1335).  updated is modelled
in whole epoch seconds: the Postgres path reads `extract (epoch from
updated)` through strtoll and the SQLite path round-trips the stored
ISO date-time string through ms_timestr2hptime with rounding, both of which
are the identity on whole-second values. -/
structure MatchRow where
  network : String
  station : String
  location : String
  channel : String
  quality : Char
  hash : List Nat
  updated : Int
deriving Repr, DecidableEq

/-- Comparison of one matched row against one section, in the order the
source tests it (hash, quality, channel, location, station, network;
mseedindex.c lines 733-738 and 1362-1367). -/
def rowMatchesSection (row : MatchRow) (sd : SectionDetails) : Bool :=
  sd.digestbytes == row.hash && sd.dataquality == row.quality &&
    sd.channel == row.channel && sd.location == row.location &&
    sd.station == row.station && sd.network == row.network

/-- Action of one matched row on one section: when identity and digest
match, the section's updated time becomes the row's (mseedindex.c lines
733-741). -/
def applyRowToSection (row : MatchRow) (sd : SectionDetails) :
    SectionDetails :=
  if rowMatchesSection row sd then { sd with updated := row.updated } else sd

/-- Inner loop of the preservation pass for one matched row: every section
whose identity and digest equal the row's gets the row's updated time
(mseedindex.c lines 726-745). -/
def applyMatchRow (secs : List SectionDetails) (row : MatchRow) :
    List SectionDetails :=
  secs.map (applyRowToSection row)

/-- Postgres preservation pass: matched rows are applied in result order
(outer loop over rows, mseedindex.c lines 721-747); a later matching row
overwrites the updated value stored by an earlier one. -/
def applyMatchRows (secs : List SectionDetails) (rows : List MatchRow) :
    List SectionDetails :=
  rows.foldl applyMatchRow secs

/-- Iterated application of one matched row, n times. -/
def applyMatchRowN (row : MatchRow) : Nat → List SectionDetails →
    List SectionDetails
  | 0, secs => secs
  | n + 1, secs => applyMatchRowN row n (applyMatchRow secs row)

/-- SQLite preservation pass (mseedindex.c lines 1346-1385): while stepping
through the result rows, the source runs the per-row pass `matchcount`
times for the current row (the inner `for (idx = 0; idx < matchcount;
idx++)` loop reads the current statement row each time), so row k
(0-based) is applied k+1 times. -/
def sqliteApplyRows : Nat → List MatchRow → List SectionDetails →
    List SectionDetails
  | _, [], secs => secs
  | matchcount, row :: rest, secs =>
    sqliteApplyRows (matchcount + 1) rest
      (applyMatchRowN row (matchcount + 1) secs)

/-- File time extents (mseedindex.c lines 638-657 and 1266-1285): fold of
the per-section earliest/latest over the trace list, starting from the
HPTERROR sentinels. -/
def fileExtents (secs : List SectionDetails) : Int × Int :=
  secs.foldl
    (fun ef sd =>
      (if ef.1 == hpterror || ef.1 > sd.earliest then sd.earliest else ef.1,
       if ef.2 == hpterror || ef.2 < sd.latest then sd.latest else ef.2))
    (hpterror, hpterror)

/-- Index of the last occurrence of the character # in a string, as found
by `strrchr (flp->filename, 0x23)` (mseedindex.c lines 622 and 1250). -/
def strrchrHash : List Char → Option Nat
  | [] => none
  | c :: rest =>
    match strrchrHash rest with
    | some i => some (i + 1)
    | none => if c == '#' then some 0 else none

/-- Whitespace test of the C locale, for the leading-space skip of strtod. -/
def isSpaceChar (c : Char) : Bool :=
  c == Char.ofNat 32 || c == Char.ofNat 9 || c == Char.ofNat 10 ||
    c == Char.ofNat 11 || c == Char.ofNat 12 || c == Char.ofNat 13

/-- Longest leading run of decimal digits, returned as digit values plus the
rest of the input. -/
def takeDigits : List Char → List Nat × List Char
  | [] => ([], [])
  | c :: rest =>
    if c.isDigit then
      let dr := takeDigits rest
      ((c.toNat - 48) :: dr.1, dr.2)
    else ([], c :: rest)

/-- Decimal digit list to natural number. -/
def digitsToNat (ds : List Nat) : Nat := ds.foldl (fun a d => a * 10 + d) 0

/-- Result of the C library strtod as the engine observes it: the converted
value, represented exactly as mantissa * 10 ^ exponent, and the number of
characters consumed (endptr minus the start pointer); a failed conversion
yields value 0 with 0 characters consumed.  The engine only ever tests the
value against zero, which holds iff the mantissa is zero. -/
structure StrtodResult where
  mantissa : Int
  exponent : Int
  consumed : Nat
deriving Repr, DecidableEq

/-- Zero test of the converted value (`!version` in the source): the value
mantissa * 10 ^ exponent is zero iff the mantissa is. -/
def StrtodResult.valueIsZero (r : StrtodResult) : Bool := r.mantissa == 0

/-- Model of strtod on decimal inputs: optional leading whitespace, optional
sign, decimal digits with optional fraction, optional exponent (consumed
only when at least one exponent digit follows).  When no digit at all is
found there is no conversion: value 0 and 0 characters consumed.  Hex,
infinity and nan forms are not modelled; the engine only tests the value
against zero and whether any characters were consumed. -/
def strtodModel (s : List Char) : StrtodResult :=
  let wsCount := (s.takeWhile isSpaceChar).length
  let s1 := s.drop wsCount
  let hasMinus := s1.head? == some '-'
  let hasPlus := s1.head? == some '+'
  let signCount := if hasMinus || hasPlus then 1 else 0
  let s2 := s1.drop signCount
  let intPart := takeDigits s2
  let s3 := intPart.2
  let hasDot := s3.head? == some '.'
  let fracPart := if hasDot then takeDigits (s3.drop 1) else ([], s3)
  let s4 := fracPart.2
  let dotCount := if hasDot then 1 else 0
  if intPart.1.isEmpty && fracPart.1.isEmpty then
    { mantissa := 0, exponent := 0, consumed := 0 }
  else
    let expInfo : Int × Nat :=
      match s4 with
      | c :: rest =>
        if c == 'e' || c == 'E' then
          let eSign : Int × List Char × Nat :=
            match rest with
            | d :: r2 =>
              if d == '-' then (-1, r2, 1)
              else if d == '+' then (1, r2, 1)
              else (1, rest, 0)
            | [] => (1, [], 0)
          let eds := takeDigits eSign.2.1
          if eds.1.isEmpty then (0, 0)
          else (eSign.1 * (digitsToNat eds.1 : Int), 1 + eSign.2.2 + eds.1.length)
        else (0, 0)
      | [] => (0, 0)
    let mag : Int := (digitsToNat (intPart.1 ++ fracPart.1) : Int)
    { mantissa := if hasMinus then -mag else mag
      exponent := expInfo.1 - (fracPart.1.length : Int)
      consumed := wsCount + signCount + intPart.1.length + dotCount +
        fracPart.1.length + expInfo.2 }

/-- Version parse at the head of both sync functions (mseedindex.c lines
621-636 and 1249-1264): when the filename contains a #, parse the text
after the last # with strtod; fail (none) exactly when the value is zero
and no characters were consumed (`!version && vp == ep`).  On success the
result is baselength, the number of characters before the last #. -/
def parseFileVersion (filename : String) : Option Nat :=
  match strrchrHash filename.data with
  | none => some 0
  | some i =>
    let r := strtodModel (filename.data.drop (i + 1))
    if r.valueIsZero && r.consumed == 0 then none else some i

/-- WHERE clause used by the SELECT and DELETE statements (mseedindex.c
lines 673-688 and 1309-1320): a filename LIKE prefix match when a version
suffix gave a positive baselength, the exact filename otherwise, in both
cases narrowed to `starttime <= filelatest + 1 day AND endtime >=
fileearliest - 1 day`.  The extents are carried as raw hptime values;
their textual rendering (epoch seconds for Postgres, ISO date-times for
SQLite) is elided. -/
inductive FileWhere where
  | likePrefix (base : String) (filelatest fileearliest : Int)
  | exact (name : String) (filelatest fileearliest : Int)
deriving Repr, DecidableEq

/-- Construction of the WHERE clause from baselength and the file extents
(`if (baselength > 0) ... LIKE ... else filename=...`). -/
def mkFileWhere (baselength : Nat) (filename : String)
    (filelatest fileearliest : Int) : FileWhere :=
  if 0 < baselength then
    FileWhere.likePrefix (String.mk (filename.data.take baselength))
      filelatest fileearliest
  else FileWhere.exact filename filelatest fileearliest

/-- Row inserted for one section (INSERT statements at mseedindex.c lines
942-965 and 1599-1622).  The timeindex column is either NULL (none) or the
list of time index entries plus the final latest=>0|1 value taken from
timeorderrecords.  The timespans/timerates/format columns are not modelled
(no claim reads them; format is always the literal NULL). -/
structure Row where
  network : String
  station : String
  location : String
  channel : String
  quality : Char
  starttime : Int
  endtime : Int
  samplerate : Rat
  filename : String
  byteoffset : Int
  bytes : Int
  hash : List Nat
  timeindex : Option (List TimeIndexEntry × Nat)
  filemodtime : Int
  updated : Int
  scanned : Int
deriving Repr, DecidableEq, Inhabited

/-- Guarded construction of the timeindex column (mseedindex.c lines
795-842 and 1439-1486): the column is built only when the time index
exists and its first entry's time equals the section's earliest time;
otherwise it stays NULL.  When built, the serialized value is the list of
time=>offset pairs followed by latest=>timeorderrecords. -/
def mkTimeindexColumn (sd : SectionDetails) :
    Option (List TimeIndexEntry × Nat) :=
  match sd.tindex with
  | [] => none
  | e :: _ =>
    if e.time == sd.earliest then some (sd.tindex, sd.timeorderrecords)
    else none

/-- Row built from one section for the INSERT (both backends bind the same
values; only the textual encodings differ). -/
def mkRow (filename : String) (filemodtime scantime : Int)
    (sd : SectionDetails) : Row :=
  { network := sd.network
    station := sd.station
    location := sd.location
    channel := sd.channel
    quality := sd.dataquality
    starttime := sd.earliest
    endtime := sd.latest
    samplerate := sd.samprate
    filename := filename
    byteoffset := sd.startoffset
    bytes := sd.endoffset - sd.startoffset + 1
    hash := sd.digestbytes
    timeindex := mkTimeindexColumn sd
    filemodtime := filemodtime
    updated := sd.updated
    scanned := scantime }

/-- Store operations issued by one run of a sync function, in issue order. -/
inductive DbOp where
  | selectMatch (w : FileWhere)
  | beginTxn
  | deleteRows (w : FileWhere)
  | insertRow (r : Row)
  | commit
deriving Repr, DecidableEq

/-- Behaviour of the store for one run: the rows the preservation SELECT
returns and whether each category of statement succeeds.  selectOk stands
for the SELECT (including its SQLite prepare/step), insertOk for the
INSERTs, commitOk for the COMMIT. -/
structure StoreEnv where
  selectOk : Bool
  matchRows : List MatchRow
  beginOk : Bool
  deleteOk : Bool
  insertOk : Bool
  commitOk : Bool
deriving Repr, DecidableEq

/-- Insert loop over the trace list (mseedindex.c lines 783-1006 and
1431-1662): one INSERT per section, stopping with failure when an INSERT
fails. -/
def insertSections (env : StoreEnv) (filename : String)
    (filemodtime scantime : Int) :
    List SectionDetails → List DbOp → Bool × List DbOp
  | [], ops => (true, ops)
  | sd :: rest, ops =>
    let ops2 := ops ++ [DbOp.insertRow (mkRow filename filemodtime scantime sd)]
    if env.insertOk then
      insertSections env filename filemodtime scantime rest ops2
    else (false, ops2)

/-- Tail of SyncPostgresFileSeries after the DELETE: the inserts and the
final COMMIT.  The source issues `PQexec (dbconn, "COMMIT")` and clears the
result without checking its status (mseedindex.c lines 1008-1013), so a
failing COMMIT still returns 0. -/
def pgInsertCommit (env : StoreEnv) (filename : String)
    (filemodtime scantime : Int) (secs : List SectionDetails)
    (ops : List DbOp) : Int × List DbOp :=
  let ir := insertSections env filename filemodtime scantime secs ops
  if ir.1 then (0, ir.2 ++ [DbOp.commit])
  else (-1, ir.2)

/-- Transaction block of SyncPostgresFileSeries (mseedindex.c lines
753-781): BEGIN TRANSACTION, then DELETE when the earlier SELECT matched
any rows, then the inserts and the unchecked COMMIT. -/
def pgTransaction (env : StoreEnv) (fw : FileWhere) (filename : String)
    (filemodtime scantime : Int) (secs : List SectionDetails)
    (ops0 : List DbOp) (matchcount : Nat) : Int × List DbOp :=
  let ops1 := ops0 ++ [DbOp.beginTxn]
  if env.beginOk then
    if 0 < matchcount then
      let ops2 := ops1 ++ [DbOp.deleteRows fw]
      if env.deleteOk then
        pgInsertCommit env filename filemodtime scantime secs ops2
      else (-1, ops2)
    else pgInsertCommit env filename filemodtime scantime secs ops1
  else (-1, ops1)

/-- SyncPostgresFileSeries (mseedindex.c lines 585-1016): version parse,
file extents, then in normal mode the preservation SELECT (issued before
the transaction starts), then the transaction with DELETE (when rows
matched), INSERTs and COMMIT.  Under noupdate the SELECT and DELETE are
skipped.  Result 0 is success, -1 failure; the second component is the
list of statements issued. -/
def syncPostgresFileSeries (env : StoreEnv) (noupdate : Bool)
    (filename : String) (filemodtime scantime : Int)
    (secs : List SectionDetails) : Int × List DbOp :=
  match parseFileVersion filename with
  | none => (-1, [])
  | some baselength =>
    let ext := fileExtents secs
    if ext.1 == hpterror || ext.2 == hpterror then (-1, [])
    else
      let fw := mkFileWhere baselength filename ext.2 ext.1
      if noupdate then
        pgTransaction env fw filename filemodtime scantime secs [] 0
      else if env.selectOk then
        pgTransaction env fw filename filemodtime scantime
          (applyMatchRows secs env.matchRows) [DbOp.selectMatch fw]
          env.matchRows.length
      else (-1, [DbOp.selectMatch fw])

/-- Tail of SyncSQLiteFileSeries after the DELETE: the inserts and the
COMMIT, whose result IS checked (mseedindex.c lines 1664-1674). -/
def sqliteInsertCommit (env : StoreEnv) (filename : String)
    (filemodtime scantime : Int) (secs : List SectionDetails)
    (ops : List DbOp) : Int × List DbOp :=
  let ir := insertSections env filename filemodtime scantime secs ops
  if ir.1 then
    let ops2 := ir.2 ++ [DbOp.commit]
    if env.commitOk then (0, ops2) else (-1, ops2)
  else (-1, ir.2)

/-- Transaction block of SyncSQLiteFileSeries (mseedindex.c lines
1402-1429): BEGIN TRANSACTION, DELETE when rows matched, inserts, checked
COMMIT. -/
def sqliteTransaction (env : StoreEnv) (fw : FileWhere) (filename : String)
    (filemodtime scantime : Int) (secs : List SectionDetails)
    (ops0 : List DbOp) (matchcount : Nat) : Int × List DbOp :=
  let ops1 := ops0 ++ [DbOp.beginTxn]
  if env.beginOk then
    if 0 < matchcount then
      let ops2 := ops1 ++ [DbOp.deleteRows fw]
      if env.deleteOk then
        sqliteInsertCommit env filename filemodtime scantime secs ops2
      else (-1, ops2)
    else sqliteInsertCommit env filename filemodtime scantime secs ops1
  else (-1, ops1)

/-- SyncSQLiteFileSeries (mseedindex.c lines 1213-1677): same structure as
the Postgres path with the SQLite preservation pass and the checked
COMMIT.  The ISO time-string formatting of the extents (lines 1296-1302)
is elided; it only affects the textual rendering of the WHERE clause. -/
def syncSQLiteFileSeries (env : StoreEnv) (noupdate : Bool)
    (filename : String) (filemodtime scantime : Int)
    (secs : List SectionDetails) : Int × List DbOp :=
  match parseFileVersion filename with
  | none => (-1, [])
  | some baselength =>
    let ext := fileExtents secs
    if ext.1 == hpterror || ext.2 == hpterror then (-1, [])
    else
      let fw := mkFileWhere baselength filename ext.2 ext.1
      if noupdate then
        sqliteTransaction env fw filename filemodtime scantime secs [] 0
      else if env.selectOk then
        sqliteTransaction env fw filename filemodtime scantime
          (sqliteApplyRows 0 env.matchRows secs) [DbOp.selectMatch fw]
          env.matchRows.length
      else (-1, [DbOp.selectMatch fw])

/-- Rows carried by the INSERT statements of an operation trace. -/
def insertedRows (ops : List DbOp) : List Row :=
  ops.filterMap (fun op =>
    match op with
    | DbOp.insertRow r => some r
    | _ => none)

/-- Test of a matched row against an inserted row on the preservation key
(hash, quality, channel, location, station, network). -/
def rowKeyMatches (m : MatchRow) (r : Row) : Bool :=
  r.hash == m.hash && r.quality == m.quality && r.channel == m.channel &&
    r.location == m.location && r.station == m.station &&
    r.network == m.network

/-- Recognizers for the operation categories of a trace. -/
def isBeginOp : DbOp → Bool
  | DbOp.beginTxn => true
  | _ => false

/-- Recognizer of the COMMIT operation. -/
def isCommitOp : DbOp → Bool
  | DbOp.commit => true
  | _ => false

/-- Recognizer of the preservation SELECT. -/
def isSelectOp : DbOp → Bool
  | DbOp.selectMatch _ => true
  | _ => false

/-- Recognizer of the DELETE statement. -/
def isDeleteOp : DbOp → Bool
  | DbOp.deleteRows _ => true
  | _ => false

/-- Recognizer of the INSERT statements. -/
def isInsertOp : DbOp → Bool
  | DbOp.insertRow _ => true
  | _ => false

/-- Operations issued strictly before the first BEGIN TRANSACTION. -/
def opsBeforeTxn (ops : List DbOp) : List DbOp :=
  ops.takeWhile (fun op => !isBeginOp op)

/-- Operations issued strictly after the first COMMIT. -/
def opsAfterTxn (ops : List DbOp) : List DbOp :=
  (ops.dropWhile (fun op => !isCommitOp op)).drop 1

/-- Statement of "every operation satisfying p runs inside one single
transaction" over a trace: exactly one BEGIN and one COMMIT, the COMMIT
after the BEGIN, and no p-operation before the BEGIN or after the
COMMIT. -/
def allOpsInsideTxn (p : DbOp → Bool) (ops : List DbOp) : Bool :=
  ops.countP (fun op => isBeginOp op) == 1 &&
  ops.countP (fun op => isCommitOp op) == 1 &&
  (opsBeforeTxn ops).all (fun op => !isCommitOp op) &&
  (opsBeforeTxn ops).all (fun op => !p op) &&
  (opsAfterTxn ops).all (fun op => !p op)

/-- Statement of "no SELECT from the first BEGIN onward": the preservation
query, when present, runs before the transaction. -/
def selectOnlyBeforeTxn (ops : List DbOp) : Bool :=
  (ops.dropWhile (fun op => !isBeginOp op)).all (fun op => !isSelectOp op)

/-- Single-quote character, written by code point to keep it out of
literals. -/
def squote : Char := Char.ofNat 39

/-- Encoding of a string value into the SQL statements built by the
program: every string is substituted verbatim between two single quotes by
the printf-style formats, e.g. `filename='%s'` (mseedindex.c lines
682-688, 1316-1320) and `VALUES ('%s','%s',...)` (lines 942-965,
1598-1622).  No call to PQescapeStringConn, sqlite3_mprintf %q or any
other escaping routine appears anywhere in the source. -/
def sqlQuote (s : List Char) : List Char := squote :: (s ++ [squote])

/-- Parser body for a standard SQL single-quoted string literal, after the
opening quote: a doubled quote stands for one quote character, a single
quote closes the literal, and the literal must span the whole remaining
input for it to represent a single value. -/
def parseSqlQuotedAux : List Char → Option (List Char)
  | [] => none
  | [c] => if c == squote then some [] else none
  | c :: c2 :: rest =>
    if c == squote then
      if c2 == squote then (parseSqlQuotedAux rest).map (fun t => squote :: t)
      else none
    else (parseSqlQuotedAux (c2 :: rest)).map (fun t => c :: t)

/-- Parser of a complete SQL single-quoted string literal: the value a
standard SQL reader decodes from the produced text, or none when the text
is not one single well-formed literal. -/
def parseSqlQuoted (s : List Char) : Option (List Char) :=
  match s with
  | [] => none
  | c :: rest => if c == squote then parseSqlQuotedAux rest else none

/-- Standard SQL escaping of a string for use inside a quoted literal:
every single quote is doubled.  This is what a store-rule-respecting
encoder would apply; used to characterize what the parser accepts. -/
def sqlEscapeQuotes : List Char → List Char
  | [] => []
  | c :: rest =>
    if c == squote then c :: c :: sqlEscapeQuotes rest
    else c :: sqlEscapeQuotes rest

/-- Concrete file modification time used by the examples. -/
def exFilemodtime : Int := 1500000000

/-- Concrete scan time used by the examples. -/
def exScantime : Int := 1500000100

/-- Concrete 512-byte record, first of the running example. -/
def exRecA : MSRecord :=
  { network := "XX", station := "TEST", location := "00", channel := "BHZ",
    dataquality := 'D', starttime := 0, endtime := 10000000,
    samprate := 100, samplecnt := 1000, reclen := 512, raw := [10] }

/-- Record adjacent to exRecA with the same identifiers and the same
512-byte length, starting 10 seconds later. -/
def exRecA2 : MSRecord :=
  { exRecA with starttime := 10000000, endtime := 20000000, raw := [20] }

/-- Record with the same identifiers as exRecA but a 256-byte length. -/
def exRecB256 : MSRecord :=
  { exRecA with
    starttime := 10000000
    endtime := 20000000
    reclen := 256
    raw := [30] }

/-- State after feeding exRecA at position 0 to the empty scan state. -/
def scanState1 : ScanState :=
  processRecord exFilemodtime initScanState 0 exRecA

/-- Section opened by exRecA at position 0. -/
def section1 : SectionDetails := newSection exFilemodtime 0 exRecA

/-- Two adjacent equal-length records, one contiguous section. -/
def exInput1 : List (Int × MSRecord) := [(0, exRecA), (512, exRecA2)]

/-- Sections of the running example file. -/
def secs1 : List SectionDetails := scanFile exFilemodtime exInput1

/-- Record with the same identifiers as exRecA and the same start time
(records in a section with equal start times). -/
def exRecSameStart : MSRecord := { exRecA with raw := [21] }

/-- Input whose two records carry equal start times. -/
def exInput5 : List (Int × MSRecord) := [(0, exRecA), (512, exRecSameStart)]

/-- Long-duration out-of-order record: starts 5 seconds before the epoch
(before exRecA starts) and spans 4000 seconds, so its end time crosses the
first one-hour sub-index boundary. -/
def exRecLong : MSRecord :=
  { exRecA with
    starttime := -5000000
    endtime := 4000000000
    samprate := (1 : Rat) / 2000
    samplecnt := 3
    raw := [22] }

/-- Input producing a time index whose entry times decrease. -/
def exInput6 : List (Int × MSRecord) := [(0, exRecA), (512, exRecLong)]

/-- Record of 4096 bytes with the same identifiers, placed at file position
4096 after 3584 bytes of skipped non-data following exRecA. -/
def exRecBig : MSRecord :=
  { exRecA with
    starttime := 20000000
    endtime := 30000000
    reclen := 4096
    raw := [23] }

/-- Input with a skipped-bytes gap that the contiguity test bridges:
position 4096 equals prevfilepos 0 plus the new record's length 4096. -/
def exInput7 : List (Int × MSRecord) := [(0, exRecA), (4096, exRecBig)]

/-- Matched row whose key equals the section of exInput1 and whose updated
time predates the file modification time. -/
def exMatchRow : MatchRow :=
  { network := "XX", station := "TEST", location := "00", channel := "BHZ",
    quality := 'D', hash := [10, 20], updated := 1400000000 }

/-- Store behaviour where everything succeeds and the SELECT returns
exMatchRow. -/
def envAllOk : StoreEnv :=
  { selectOk := true, matchRows := [exMatchRow], beginOk := true,
    deleteOk := true, insertOk := true, commitOk := true }

/-- Store behaviour where only the COMMIT fails. -/
def envCommitFail : StoreEnv := { envAllOk with commitOk := false }

/-- Filename of the running example. -/
def exFilename : String := "/data/a"

/-- Filename whose version suffix does not parse as a number. -/
def exBadName : String := "data#x"

/-- Filename with the parseable version suffix 0. -/
def exGoodName : String := "data#0"

/-- Filename whose last # is its first character. -/
def hashFive : String := "#5"

/-- Value containing a single quote, for the SQL encoding claim. -/
def exQuoteVal : List Char := [Char.ofNat 97, squote, Char.ofNat 98]

/-- First row inserted by the running-example Postgres sync. -/
def exInsertedRow : Row :=
  (insertedRows
    (syncPostgresFileSeries envAllOk false exFilename exFilemodtime exScantime
      secs1).2).headI

/-- Specification of the time-order flag against the record starts of a
section: the flag is set iff the start times are strictly increasing. -/
def timeorderSpec (S : SectionDetails) : Prop :=
  S.timeorderrecords = 1 ↔
    List.Chain' (· < ·) (S.records.map SectionRecord.starttime)

/-- Invariant of the scan loop for the time-order claim: every closed
section and the open one satisfy timeorderSpec, and prevstarttime is the
start time of the open section's last record. -/
def scanInvTO (st : ScanState) : Prop :=
  (∀ S ∈ st.closed, timeorderSpec S) ∧
  ∀ c, st.cmst = some c →
    timeorderSpec c ∧
      (c.records.map SectionRecord.starttime).getLast? = some st.prevstarttime

/-- Statement that a section's flag field carries a boolean value. -/
def flagSpec (S : SectionDetails) : Prop :=
  S.timeorderrecords = 0 ∨ S.timeorderrecords = 1

/-- Invariant of the scan loop for the flag-domain fact. -/
def scanInvFlag (st : ScanState) : Prop :=
  (∀ S ∈ st.closed, flagSpec S) ∧ ∀ c, st.cmst = some c → flagSpec c

/-- Byte adjacency of the records aggregated into a section: every record
after the first starts exactly at the end of its predecessor. -/
def adjacentRecords (S : SectionDetails) : Prop :=
  List.Chain' (fun a b => b.offset = a.offset + a.reclen) S.records

/-- Relation of a section's stored byte extents to its first and last
records. -/
def extentSpec (S : SectionDetails) : Prop :=
  ∃ r0 rl, S.records.head? = some r0 ∧ S.records.getLast? = some rl ∧
    S.startoffset = r0.offset ∧ S.endoffset = rl.offset + rl.reclen - 1

/-- Invariant of the scan loop for the byte-extent claim. -/
def scanInvExtent (st : ScanState) : Prop :=
  (∀ S ∈ st.closed, extentSpec S) ∧ ∀ c, st.cmst = some c → extentSpec c

/-- Per-section form of the preservation pass: the fold of the matched rows
over one section. -/
def applyRowsToSection (rows : List MatchRow) (sd : SectionDetails) :
    SectionDetails :=
  rows.foldl (fun s r => applyRowToSection r s) sd

/-- Statement of the preservation contract for one emitted row: scanned is
the scan time unconditionally; when some matched row carries the row's
identity, quality and digest, updated equals such a matched row's updated
time; otherwise updated equals the file modification time. -/
def preservationOK (env : StoreEnv) (fm sc : Int) (row : Row) : Prop :=
  row.scanned = sc ∧
  ((∃ m ∈ env.matchRows, rowKeyMatches m row = true) →
    ∃ m ∈ env.matchRows, rowKeyMatches m row = true ∧
      row.updated = m.updated) ∧
  ((∀ m ∈ env.matchRows, rowKeyMatches m row = false) → row.updated = fm)

/-- Operations the replacement step consists of: the DELETE and the
INSERTs. -/
def isDeleteOrInsertOp (op : DbOp) : Bool := isDeleteOp op || isInsertOp op

/-- Operations the claim requires inside the transaction: the preservation
SELECT, the DELETE and the INSERTs. -/
def isSelectDeleteOrInsertOp (op : DbOp) : Bool :=
  isSelectOp op || isDeleteOp op || isInsertOp op

/-- Section produced by the running example (first section of secs1). -/
def exSec1 : SectionDetails := secs1.headI

/-- Claim C1, counterexample.  The claim states that a record extends the
open section whenever its identifiers match and its offset p equals
S.end_offset + 1.  Here the open section (opened by a 512-byte record at
offset 0, so end_offset = 511) is followed by a matching 256-byte record
at offset 512 = end_offset + 1, yet the scan loop closes the section and
opens a new one: its contiguity test compares p against prevfilepos plus
the NEW record's length (mseedindex.c line 268), 0 + 256 = 256 ≠ 512. -/
theorem C1_claim_counterexample :
    scanState1.cmst = some section1 ∧
    mst_findmatch section1 exRecB256 = true ∧
    (512 : Int) = section1.endoffset + 1 ∧
    (processRecord exFilemodtime scanState1 512 exRecB256).closed =
      [section1] ∧
    scanState1.closed = [] := by
  refine ⟨rfl, by decide, by decide, rfl, rfl⟩

/-- Claim C1, amended.  With a section S open, a record R at offset p
extends S (the closed list is unchanged) iff R's identifiers and quality
match S's and p equals prevfilepos + R.reclen, i.e. the previous record's
offset plus the NEW record's length — not S.end_offset + 1 as claimed
(the two agree exactly when R has the same length as the previous record
and is adjacent to it).  In every other case S is closed and a new section
is opened from R with extents (p, p + L - 1). -/
theorem C1_extension_rule (fm : Int) (st : ScanState) (c : SectionDetails)
    (p : Int) (msr : MSRecord) (h : st.cmst = some c) :
    ((processRecord fm st p msr).closed = st.closed ↔
      (mst_findmatch c msr = true ∧ p = st.prevfilepos + msr.reclen)) ∧
    (¬ (mst_findmatch c msr = true ∧ p = st.prevfilepos + msr.reclen) →
      (processRecord fm st p msr).closed = st.closed ++ [c] ∧
      (processRecord fm st p msr).cmst = some (newSection fm p msr)) := by
  obtain ⟨closed, cmst, pf, ps, ni⟩ := st
  cases h
  by_cases hc : (mst_findmatch c msr && (p == pf + msr.reclen)) = true
  · have hc2 := hc
    rw [Bool.and_eq_true, beq_iff_eq] at hc2
    constructor
    · simp [processRecord, hc, extendCurrent, hc2]
    · intro hn
      exact absurd hc2 hn
  · have hc2 : ¬ (mst_findmatch c msr = true ∧ p = pf + msr.reclen) := by
      intro hcon
      exact hc (by rw [Bool.and_eq_true, beq_iff_eq]; exact hcon)
    constructor
    · simp only [processRecord, hc, if_neg, Bool.not_eq_true] at *
      constructor
      · intro heq
        have hlen := congrArg List.length heq
        simp at hlen
      · intro hcon
        exact absurd hcon hc2
    · intro _
      simp [processRecord, hc]

/-- Claim C1, amended, witness: a matching 512-byte record adjacent to the
512-byte opener extends the section. -/
theorem C1_extension_rule_witness :
    ((processRecord exFilemodtime scanState1 512 exRecA2).closed =
        scanState1.closed ↔
      (mst_findmatch section1 exRecA2 = true ∧
        (512 : Int) = scanState1.prevfilepos + exRecA2.reclen)) ∧
    (¬ (mst_findmatch section1 exRecA2 = true ∧
        (512 : Int) = scanState1.prevfilepos + exRecA2.reclen) →
      (processRecord exFilemodtime scanState1 512 exRecA2).closed =
        scanState1.closed ++ [section1] ∧
      (processRecord exFilemodtime scanState1 512 exRecA2).cmst =
        some (newSection exFilemodtime 512 exRecA2)) :=
  C1_extension_rule exFilemodtime scanState1 section1 512 exRecA2 (by decide)

/-- Invariant preservation for the time-order claim: one step of the record
loop keeps scanInvTO. -/
theorem scanInvTO_step (fm : Int) (st : ScanState) (p : Int) (msr : MSRecord)
    (h : scanInvTO st) : scanInvTO (processRecord fm st p msr) := by
  obtain ⟨closed, cmst, pf, ps, ni⟩ := st
  obtain ⟨hclosed, hopen⟩ := h
  cases cmst with
  | none =>
    refine ⟨hclosed, ?_⟩
    intro c2 hc2
    simp only [processRecord, Option.some.injEq] at hc2
    cases hc2
    refine ⟨?_, ?_⟩
    · simp [timeorderSpec, newSection]
    · simp [newSection, processRecord]
  | some c =>
    obtain ⟨hto, hlast⟩ := hopen c rfl
    rw [timeorderSpec] at hto
    by_cases hc : (mst_findmatch c msr && (p == pf + msr.reclen)) = true
    · refine ⟨?_, ?_⟩
      · simpa [processRecord, hc, extendCurrent] using hclosed
      · intro c2 hc2
        simp only [processRecord, hc, if_pos, extendCurrent,
          Option.some.injEq] at hc2
        subst hc2
        refine ⟨?_, ?_⟩
        · simp only [timeorderSpec, List.map_append, List.map_cons,
            List.map_nil]
          rw [List.chain'_append]
          by_cases hle : msr.starttime ≤ ps
          · simp only [if_pos hle]
            constructor
            · intro h01; exact absurd h01 (by decide)
            · rintro ⟨-, -, hcond⟩
              have := hcond ps (by simpa using hlast) msr.starttime (by simp)
              exact absurd hle (not_le.mpr this)
          · simp only [if_neg hle]
            have hps : ps < msr.starttime := lt_of_not_le hle
            rw [hto]
            clear hto
            constructor
            · intro hch
              refine ⟨hch, List.chain'_singleton _, ?_⟩
              intro x hx y hy
              simp only [List.head?_cons, Option.mem_def,
                Option.some.injEq] at hy
              rw [Option.mem_def, hlast, Option.some.injEq] at hx
              subst hx; subst hy; exact hps
            · rintro ⟨hch, -, -⟩; exact hch
        · simp [List.getLast?_append, processRecord, hc, extendCurrent]
    · refine ⟨?_, ?_⟩
      · intro S hS
        simp only [processRecord, hc, Bool.not_eq_true, if_neg] at hS
        simp only [List.mem_append, List.mem_singleton] at hS
        cases hS with
        | inl hS => exact hclosed S hS
        | inr hS => cases hS; exact hto
      · intro c2 hc2
        simp only [processRecord, hc, Bool.not_eq_true, if_neg,
          Option.some.injEq] at hc2
        cases hc2
        refine ⟨?_, ?_⟩
        · simp [timeorderSpec, newSection]
        · simp [newSection, processRecord, hc]

/-- Invariant holds of the initial scan state. -/
theorem scanInvTO_init : scanInvTO initScanState := by
  constructor
  · intro S hS; simp [initScanState] at hS
  · intro c hc; simp [initScanState] at hc

/-- Invariant carried through the whole record fold. -/
theorem scanInvTO_foldl (fm : Int) (recs : List (Int × MSRecord))
    (st : ScanState) (h : scanInvTO st) :
    scanInvTO (recs.foldl (fun s pr => processRecord fm s pr.1 pr.2) st) := by
  induction recs generalizing st with
  | nil => exact h
  | cons pr rest ih => exact ih _ (scanInvTO_step fm st pr.1 pr.2 h)

/-- Claim C5, counterexample.  Two adjacent records with EQUAL start times:
the starts never decrease, yet the flag is cleared, because the source
tests `msr->starttime <= prevstarttime` (mseedindex.c line 283), clearing
the flag on equality as well. -/
theorem C5_claim_counterexample :
    (scanFile exFilemodtime exInput5).map
        (fun S => S.timeorderrecords) = [0] ∧
    ∀ S ∈ scanFile exFilemodtime exInput5,
      List.Chain' (· ≤ ·) (S.records.map SectionRecord.starttime) := by
  refine ⟨by decide, ?_⟩
  have hexp : (scanFile exFilemodtime exInput5).map
      (fun S => S.records.map SectionRecord.starttime) = [[0, 0]] := by decide
  intro S hS
  have hmem := List.mem_map_of_mem
    (fun S => S.records.map SectionRecord.starttime) hS
  rw [hexp] at hmem
  simp only [List.mem_singleton] at hmem
  rw [hmem]
  simp [List.chain'_cons]

/-- Claim C5, amended.  For every section produced by a scan, the
time-order flag is set iff the start times of the records aggregated into
the section STRICTLY increased; a repeated start time clears the flag
(mseedindex.c line 283 uses <=, not <). -/
theorem C5_time_order_flag (fm : Int) (recs : List (Int × MSRecord))
    (S : SectionDetails) (hS : S ∈ scanFile fm recs) :
    S.timeorderrecords = 1 ↔
      List.Chain' (· < ·) (S.records.map SectionRecord.starttime) := by
  have hinv := scanInvTO_foldl fm recs initScanState scanInvTO_init
  simp only [scanFile, List.mem_append] at hS
  cases hS with
  | inl h => exact hinv.1 S h
  | inr h =>
    rw [Option.mem_toList, Option.mem_def] at h
    exact (hinv.2 S h).1

/-- Claim C5, amended, witness: the strictly increasing two-record example
section. -/
theorem C5_time_order_flag_witness :
    exSec1.timeorderrecords = 1 ↔
      List.Chain' (· < ·) (exSec1.records.map SectionRecord.starttime) :=
  C5_time_order_flag exFilemodtime exInput1 exSec1 (by decide)

/-- Claim C6, evaluation at the failing input.  exInput6 is a well-formed
record stream: a record starting at epoch 0, followed by an adjacent
matching record that starts 5 seconds EARLIER but lasts 4000 seconds, so
its end time crosses the one-hour sub-index boundary.  The emitted
section's time index is [(0, 0), (-5000000, 512)]: the byte offsets
increase but the times DECREASE, contradicting the claimed invariant (and
the source's own comment at mseedindex.c lines 286-287, "The time index
will always be increasing in both time and offset"). -/
theorem C6_time_index_regression :
    wfStream exInput6 = true ∧
    (scanFile exFilemodtime exInput6).map
        (fun S => S.tindex.map TimeIndexEntry.time) = [[0, -5000000]] ∧
    (scanFile exFilemodtime exInput6).map
        (fun S => S.tindex.map TimeIndexEntry.byteoffset) = [[0, 512]] ∧
    ¬ ((0 : Int) ≤ -5000000) := by decide

/-- Claim C7, counterexample.  With skip-non-data, a 512-byte record at
offset 0 is followed by 3584 skipped bytes and a matching 4096-byte record
at offset 4096.  The contiguity test filepos == prevfilepos + msr->reclen
(mseedindex.c line 268) accepts it (4096 = 0 + 4096), extending the
section across the gap: the section spans 8192 bytes but the records sum
to 4608. -/
theorem C7_claim_counterexample :
    wfStream exInput7 = true ∧
    (scanFile exFilemodtime exInput7).map
        (fun S => (S.endoffset - S.startoffset + 1,
          (S.records.map SectionRecord.reclen).sum)) = [(8192, 4608)] ∧
    (8192 : Int) ≠ 4608 := by decide

/-- Invariant preservation for the extent claim: one loop step keeps
scanInvExtent. -/
theorem scanInvExtent_step (fm : Int) (st : ScanState) (p : Int)
    (msr : MSRecord) (h : scanInvExtent st) :
    scanInvExtent (processRecord fm st p msr) := by
  obtain ⟨closed, cmst, pf, ps, ni⟩ := st
  obtain ⟨hclosed, hopen⟩ := h
  cases cmst with
  | none =>
    refine ⟨hclosed, ?_⟩
    intro c2 hc2
    simp only [processRecord, Option.some.injEq] at hc2
    cases hc2
    exact ⟨_, _, rfl, rfl, rfl, rfl⟩
  | some c =>
    obtain ⟨r0, rl, h0, hl, hso, heo⟩ := hopen c rfl
    by_cases hc : (mst_findmatch c msr && (p == pf + msr.reclen)) = true
    · refine ⟨?_, ?_⟩
      · simpa [processRecord, hc, extendCurrent] using hclosed
      · intro c2 hc2
        simp only [processRecord, hc, if_pos, extendCurrent,
          Option.some.injEq] at hc2
        subst hc2
        refine ⟨r0, (⟨p, msr.reclen, msr.starttime⟩ : SectionRecord),
          ?_, ?_, hso, rfl⟩
        · obtain ⟨t, ht⟩ : ∃ t, c.records = r0 :: t := by
            cases hrec : c.records with
            | nil => rw [hrec] at h0; simp at h0
            | cons a t =>
              rw [hrec] at h0
              simp only [List.head?_cons, Option.some.injEq] at h0
              exact ⟨t, by rw [h0]⟩
          simp [ht]
        · simp
    · refine ⟨?_, ?_⟩
      · intro S hS
        simp only [processRecord, hc, Bool.not_eq_true, if_neg] at hS
        simp only [List.mem_append, List.mem_singleton] at hS
        cases hS with
        | inl hS => exact hclosed S hS
        | inr hS => cases hS; exact ⟨r0, rl, h0, hl, hso, heo⟩
      · intro c2 hc2
        simp only [processRecord, hc, Bool.not_eq_true, if_neg,
          Option.some.injEq] at hc2
        cases hc2
        exact ⟨_, _, rfl, rfl, rfl, rfl⟩

/-- Extent invariant holds initially. -/
theorem scanInvExtent_init : scanInvExtent initScanState := by
  constructor
  · intro S hS; simp [initScanState] at hS
  · intro c hc; simp [initScanState] at hc

/-- Extent invariant carried through the whole record fold. -/
theorem scanInvExtent_foldl (fm : Int) (recs : List (Int × MSRecord))
    (st : ScanState) (h : scanInvExtent st) :
    scanInvExtent
      (recs.foldl (fun s pr => processRecord fm s pr.1 pr.2) st) := by
  induction recs generalizing st with
  | nil => exact h
  | cons pr rest ih => exact ih _ (scanInvExtent_step fm st pr.1 pr.2 h)

/-- Arithmetic core for the extent claim: along an adjacent chain of
records, the last record's end equals the first record's offset plus the
sum of all record lengths. -/
theorem chain_adjacent_sum (l : List SectionRecord) (r0 rl : SectionRecord)
    (hch : List.Chain' (fun a b => b.offset = a.offset + a.reclen) l)
    (h0 : l.head? = some r0) (hl : l.getLast? = some rl) :
    rl.offset + rl.reclen = r0.offset + (l.map SectionRecord.reclen).sum := by
  induction l generalizing r0 with
  | nil => simp at h0
  | cons a t ih =>
    simp only [List.head?_cons, Option.some.injEq] at h0
    subst h0
    cases t with
    | nil =>
      simp only [List.getLast?_singleton, Option.some.injEq] at hl
      subst hl; simp
    | cons b t2 =>
      rw [List.chain'_cons] at hch
      rw [List.getLast?_cons_cons] at hl
      have hrec := ih b hch.2 rfl hl
      have hb := hch.1
      simp only [List.map_cons, List.sum_cons] at hrec ⊢
      linarith

/-- Claim C7, amended.  For every section S whose aggregated records are
byte-adjacent (each record begins exactly at its predecessor's end + 1,
i.e. no skipped non-data bytes were bridged into S), end_offset -
start_offset + 1 equals the sum of the record lengths.  The unamended
claim fails when the contiguity test bridges a skipped-bytes gap, as in
the counterexample. -/
theorem C7_section_size (fm : Int) (recs : List (Int × MSRecord))
    (S : SectionDetails) (hS : S ∈ scanFile fm recs)
    (hadj : adjacentRecords S) :
    S.endoffset - S.startoffset + 1 =
      (S.records.map SectionRecord.reclen).sum := by
  have hinv := scanInvExtent_foldl fm recs initScanState scanInvExtent_init
  have hex : extentSpec S := by
    simp only [scanFile, List.mem_append] at hS
    cases hS with
    | inl h => exact hinv.1 S h
    | inr h =>
      rw [Option.mem_toList, Option.mem_def] at h
      exact hinv.2 S h
  obtain ⟨r0, rl, h0, hl, hso, heo⟩ := hex
  have hsum := chain_adjacent_sum S.records r0 rl hadj h0 hl
  rw [hso, heo]
  linarith

/-- Claim C7, amended, witness: the adjacent two-record example section. -/
theorem C7_section_size_witness :
    exSec1.endoffset - exSec1.startoffset + 1 =
      (exSec1.records.map SectionRecord.reclen).sum :=
  C7_section_size exFilemodtime exInput1 exSec1 (by decide)
    (by
      have hrec : exSec1.records =
          [{ offset := 0, reclen := 512, starttime := 0 },
           { offset := 512, reclen := 512, starttime := 10000000 }] := by
        decide
      show List.Chain' (fun a b => b.offset = a.offset + a.reclen)
        exSec1.records
      rw [hrec]
      simp [List.chain'_cons])

/-- Matching of a row does not depend on the section's updated field. -/
theorem rowMatchesSection_set_updated (r : MatchRow) (sd : SectionDetails)
    (u : Int) :
    rowMatchesSection r { sd with updated := u } = rowMatchesSection r sd :=
  rfl

/-- One matched-row step only rewrites the updated field. -/
theorem applyRowToSection_shape (r : MatchRow) (sd : SectionDetails) :
    ∃ u, applyRowToSection r sd = { sd with updated := u } := by
  unfold applyRowToSection
  by_cases h : rowMatchesSection r sd = true
  · exact ⟨r.updated, by rw [if_pos h]⟩
  · exact ⟨sd.updated, by rw [if_neg h]⟩

/-- The whole preservation fold only rewrites the updated field. -/
theorem applyRowsToSection_shape (rows : List MatchRow) (sd : SectionDetails) :
    ∃ u, applyRowsToSection rows sd = { sd with updated := u } := by
  induction rows generalizing sd with
  | nil => exact ⟨sd.updated, rfl⟩
  | cons r rs ih =>
    obtain ⟨u1, h1⟩ := applyRowToSection_shape r sd
    obtain ⟨u2, h2⟩ := ih (applyRowToSection r sd)
    refine ⟨u2, ?_⟩
    calc applyRowsToSection (r :: rs) sd
        = applyRowsToSection rs (applyRowToSection r sd) := rfl
      _ = { applyRowToSection r sd with updated := u2 } := h2
      _ = { sd with updated := u2 } := by rw [h1]

/-- The row-major preservation loop equals the per-section fold applied to
every section. -/
theorem applyMatchRows_eq_map (secs : List SectionDetails)
    (rows : List MatchRow) :
    applyMatchRows secs rows = secs.map (applyRowsToSection rows) := by
  induction rows generalizing secs with
  | nil =>
    exact ((List.map_congr_left fun a _ => rfl).trans (List.map_id secs)).symm
  | cons r rs ih =>
    calc applyMatchRows secs (r :: rs)
        = applyMatchRows (applyMatchRow secs r) rs := rfl
      _ = (applyMatchRow secs r).map (applyRowsToSection rs) := ih _
      _ = secs.map (applyRowsToSection (r :: rs)) := by
          simp only [applyMatchRow, List.map_map]
          rfl

/-- Outcome of the preservation fold on one section's updated field:
either some matched row fits the section and the final updated value is
that of one fitting row, or no row fits and updated is untouched. -/
theorem applyRowsToSection_updated (rows : List MatchRow)
    (sd : SectionDetails) :
    (∃ r ∈ rows, rowMatchesSection r sd = true ∧
        (applyRowsToSection rows sd).updated = r.updated) ∨
      ((∀ r ∈ rows, rowMatchesSection r sd = false) ∧
        (applyRowsToSection rows sd).updated = sd.updated) := by
  induction rows generalizing sd with
  | nil => exact Or.inr ⟨by simp, rfl⟩
  | cons r rs ih =>
    have hstep : applyRowsToSection (r :: rs) sd =
        applyRowsToSection rs (applyRowToSection r sd) := rfl
    by_cases h : rowMatchesSection r sd = true
    · have hset : applyRowToSection r sd = { sd with updated := r.updated } := by
        unfold applyRowToSection; rw [if_pos h]
      rcases ih { sd with updated := r.updated } with
        ⟨r2, hr2, hm, hu⟩ | ⟨hall, hu⟩
      · left
        refine ⟨r2, List.mem_cons_of_mem _ hr2, ?_, ?_⟩
        · rwa [rowMatchesSection_set_updated] at hm
        · rw [hstep, hset]; exact hu
      · left
        refine ⟨r, List.mem_cons_self _ _, h, ?_⟩
        rw [hstep, hset, hu]
    · have hset : applyRowToSection r sd = sd := by
        unfold applyRowToSection; rw [if_neg h]
      rcases ih sd with ⟨r2, hr2, hm, hu⟩ | ⟨hall, hu⟩
      · left
        exact ⟨r2, List.mem_cons_of_mem _ hr2, hm, by rw [hstep, hset]; exact hu⟩
      · right
        refine ⟨?_, by rw [hstep, hset]; exact hu⟩
        intro r2 hr2
        rcases List.mem_cons.mp hr2 with rfl | hr2
        · exact Bool.eq_false_iff.mpr h
        · exact hall r2 hr2

/-- Applying the same matched row twice to one section equals applying it
once. -/
theorem applyRowToSection_idem (r : MatchRow) (sd : SectionDetails) :
    applyRowToSection r (applyRowToSection r sd) = applyRowToSection r sd := by
  unfold applyRowToSection
  by_cases h : rowMatchesSection r sd = true
  · rw [if_pos h]
    rw [if_pos ((rowMatchesSection_set_updated r sd r.updated).symm ▸ h)]
  · rw [if_neg h, if_neg h]

/-- Applying the same matched row twice to the section list equals applying
it once. -/
theorem applyMatchRow_idem (secs : List SectionDetails) (r : MatchRow) :
    applyMatchRow (applyMatchRow secs r) r = applyMatchRow secs r := by
  simp only [applyMatchRow, List.map_map]
  exact List.map_congr_left (fun sd _ => applyRowToSection_idem r sd)

/-- The n+1-fold application of one matched row collapses to a single
application. -/
theorem applyMatchRowN_eq (r : MatchRow) (n : Nat)
    (secs : List SectionDetails) :
    applyMatchRowN r (n + 1) secs = applyMatchRow secs r := by
  induction n generalizing secs with
  | zero => rfl
  | succ n ih =>
    calc applyMatchRowN r (n + 2) secs
        = applyMatchRowN r (n + 1) (applyMatchRow secs r) := rfl
      _ = applyMatchRow (applyMatchRow secs r) r := ih _
      _ = applyMatchRow secs r := applyMatchRow_idem secs r

/-- The SQLite preservation pass, despite re-applying each result row
matchcount times, computes the same section list as the Postgres pass. -/
theorem sqliteApplyRows_eq (rows : List MatchRow) :
    ∀ (mc : Nat) (secs : List SectionDetails),
      sqliteApplyRows mc rows secs = applyMatchRows secs rows := by
  induction rows with
  | nil => intro mc secs; rfl
  | cons r rs ih =>
    intro mc secs
    calc sqliteApplyRows mc (r :: rs) secs
        = sqliteApplyRows (mc + 1) rs (applyMatchRowN r (mc + 1) secs) := rfl
      _ = applyMatchRows (applyMatchRowN r (mc + 1) secs) rs := ih _ _
      _ = applyMatchRows (applyMatchRow secs r) rs := by rw [applyMatchRowN_eq]
      _ = applyMatchRows secs (r :: rs) := rfl

/-- Flag-domain invariant preservation: every loop step keeps the
time-order flag in 0 or 1. -/
theorem scanInvFlag_step (fm : Int) (st : ScanState) (p : Int)
    (msr : MSRecord) (h : scanInvFlag st) :
    scanInvFlag (processRecord fm st p msr) := by
  obtain ⟨closed, cmst, pf, ps, ni⟩ := st
  obtain ⟨hclosed, hopen⟩ := h
  cases cmst with
  | none =>
    refine ⟨hclosed, ?_⟩
    intro c2 hc2
    simp only [processRecord, Option.some.injEq] at hc2
    cases hc2
    exact Or.inr rfl
  | some c =>
    have hc0 := hopen c rfl
    by_cases hc : (mst_findmatch c msr && (p == pf + msr.reclen)) = true
    · refine ⟨?_, ?_⟩
      · simpa [processRecord, hc, extendCurrent] using hclosed
      · intro c2 hc2
        simp only [processRecord, hc, if_pos, extendCurrent,
          Option.some.injEq] at hc2
        subst hc2
        show flagSpec _
        unfold flagSpec
        by_cases hle : msr.starttime ≤ ps
        · simp [hle]
        · simpa [hle] using hc0
    · refine ⟨?_, ?_⟩
      · intro S hS
        simp only [processRecord, hc, Bool.not_eq_true, if_neg] at hS
        simp only [List.mem_append, List.mem_singleton] at hS
        cases hS with
        | inl hS => exact hclosed S hS
        | inr hS => cases hS; exact hc0
      · intro c2 hc2
        simp only [processRecord, hc, Bool.not_eq_true, if_neg,
          Option.some.injEq] at hc2
        cases hc2
        exact Or.inr rfl

/-- Flag-domain invariant carried through the whole record fold. -/
theorem scanInvFlag_foldl (fm : Int) (recs : List (Int × MSRecord))
    (st : ScanState) (h : scanInvFlag st) :
    scanInvFlag
      (recs.foldl (fun s pr => processRecord fm s pr.1 pr.2) st) := by
  induction recs generalizing st with
  | nil => exact h
  | cons pr rest ih => exact ih _ (scanInvFlag_step fm st pr.1 pr.2 h)

/-- Every section of a scan carries a 0-or-1 time-order flag. -/
theorem scanFile_flag (fm : Int) (recs : List (Int × MSRecord))
    (S : SectionDetails) (hS : S ∈ scanFile fm recs) : flagSpec S := by
  have hinv := scanInvFlag_foldl fm recs initScanState (by
    constructor
    · intro S hS2; simp [initScanState] at hS2
    · intro c hc; simp [initScanState] at hc)
  simp only [scanFile, List.mem_append] at hS
  cases hS with
  | inl h => exact hinv.1 S h
  | inr h =>
    rw [Option.mem_toList, Option.mem_def] at h
    exact hinv.2 S h

/-- Claim C4.  For every row emitted for a section (a section produced by
the scan, possibly rewritten by the preservation pass), the timeindex
column is NULL exactly when the first time_index entry's time differs from
the section's earliest time; when it is not NULL, it consists of the
section's time=>offset entries followed by a final latest value equal to
the 0-or-1 time-order flag. -/
theorem C4_timeindex_guard (fm sc : Int) (recs : List (Int × MSRecord))
    (mrows : List MatchRow) (fn : String) (S : SectionDetails)
    (hS : S ∈ applyMatchRows (scanFile fm recs) mrows) :
    ((mkRow fn fm sc S).timeindex = none ↔
      ¬ (S.tindex.head?.map TimeIndexEntry.time = some S.earliest)) ∧
    ∀ pr, (mkRow fn fm sc S).timeindex = some pr →
      pr.1 = S.tindex ∧ pr.2 = S.timeorderrecords ∧
        (pr.2 = 0 ∨ pr.2 = 1) := by
  have hflag : flagSpec S := by
    rw [applyMatchRows_eq_map] at hS
    obtain ⟨S0, hS0, rfl⟩ := List.mem_map.mp hS
    obtain ⟨u, hu⟩ := applyRowsToSection_shape mrows S0
    have h0 : flagSpec S0 := scanFile_flag fm recs S0 hS0
    rw [hu]
    exact h0
  have hcol : (mkRow fn fm sc S).timeindex = mkTimeindexColumn S := rfl
  rw [hcol]
  constructor
  · cases ht : S.tindex with
    | nil => simp [mkTimeindexColumn, ht]
    | cons e t =>
      simp only [mkTimeindexColumn, ht, List.head?_cons, Option.map_some']
      by_cases he : e.time = S.earliest
      · simp [he]
      · simp [he, beq_iff_eq]
  · intro pr hpr
    cases ht : S.tindex with
    | nil => rw [mkTimeindexColumn, ht] at hpr; exact absurd hpr (by simp)
    | cons e t =>
      simp only [mkTimeindexColumn, ht] at hpr
      by_cases he : (e.time == S.earliest) = true
      · rw [if_pos he, Option.some.injEq] at hpr
        refine ⟨?_, ?_, ?_⟩
        · rw [← hpr]
        · rw [← hpr]
        · rw [← hpr]; exact hflag
      · rw [if_neg he] at hpr; exact absurd hpr (by simp)

/-- Claim C4, witness: the running example's section, with no matched rows
applied. -/
theorem C4_timeindex_guard_witness :
    ((mkRow exFilename exFilemodtime exScantime exSec1).timeindex = none ↔
      ¬ (exSec1.tindex.head?.map TimeIndexEntry.time =
          some exSec1.earliest)) ∧
    ∀ pr,
      (mkRow exFilename exFilemodtime exScantime exSec1).timeindex =
          some pr →
        pr.1 = exSec1.tindex ∧ pr.2 = exSec1.timeorderrecords ∧
          (pr.2 = 0 ∨ pr.2 = 1) :=
  C4_timeindex_guard exFilemodtime exScantime exInput1 [] exFilename exSec1
    (by decide)

/-- Inserted rows distribute over trace concatenation. -/
theorem insertedRows_append (l1 l2 : List DbOp) :
    insertedRows (l1 ++ l2) = insertedRows l1 ++ insertedRows l2 := by
  simp [insertedRows, List.filterMap_append]

/-- Every row inserted by the insert loop is either from the incoming trace
or built by mkRow from one of the sections. -/
theorem insertSections_rows (env : StoreEnv) (fn : String) (fm sc : Int) :
    ∀ (secs : List SectionDetails) (ops : List DbOp) (row : Row),
      row ∈ insertedRows (insertSections env fn fm sc secs ops).2 →
      row ∈ insertedRows ops ∨ ∃ sd ∈ secs, row = mkRow fn fm sc sd := by
  intro secs
  induction secs with
  | nil => intro ops row h; exact Or.inl h
  | cons sd rest ih =>
    intro ops row h
    have hsplit : ∀ r : Row,
        r ∈ insertedRows (ops ++ [DbOp.insertRow (mkRow fn fm sc sd)]) →
        r ∈ insertedRows ops ∨ r = mkRow fn fm sc sd := by
      intro r hr
      rw [insertedRows_append] at hr
      rcases List.mem_append.mp hr with h1 | h1
      · exact Or.inl h1
      · right
        simpa [insertedRows] using h1
    simp only [insertSections] at h
    by_cases hins : env.insertOk = true
    · rw [if_pos hins] at h
      rcases ih _ row h with h2 | ⟨sd2, hsd2, heq⟩
      · rcases hsplit row h2 with h3 | h3
        · exact Or.inl h3
        · exact Or.inr ⟨sd, List.mem_cons_self _ _, h3⟩
      · exact Or.inr ⟨sd2, List.mem_cons_of_mem _ hsd2, heq⟩
    · rw [if_neg hins] at h
      rcases hsplit row h with h3 | h3
      · exact Or.inl h3
      · exact Or.inr ⟨sd, List.mem_cons_self _ _, h3⟩

/-- Row provenance through the Postgres insert-and-commit tail. -/
theorem pgInsertCommit_rows (env : StoreEnv) (fn : String) (fm sc : Int)
    (secs : List SectionDetails) (ops : List DbOp) (row : Row)
    (h : row ∈ insertedRows (pgInsertCommit env fn fm sc secs ops).2) :
    row ∈ insertedRows ops ∨ ∃ sd ∈ secs, row = mkRow fn fm sc sd := by
  unfold pgInsertCommit at h
  by_cases hi : (insertSections env fn fm sc secs ops).1 = true
  · rw [if_pos hi] at h
    rw [insertedRows_append] at h
    rcases List.mem_append.mp h with h1 | h1
    · exact insertSections_rows env fn fm sc secs ops row h1
    · simp [insertedRows] at h1
  · rw [if_neg hi] at h
    exact insertSections_rows env fn fm sc secs ops row h

/-- Row provenance through the SQLite insert-and-commit tail. -/
theorem sqliteInsertCommit_rows (env : StoreEnv) (fn : String) (fm sc : Int)
    (secs : List SectionDetails) (ops : List DbOp) (row : Row)
    (h : row ∈ insertedRows (sqliteInsertCommit env fn fm sc secs ops).2) :
    row ∈ insertedRows ops ∨ ∃ sd ∈ secs, row = mkRow fn fm sc sd := by
  unfold sqliteInsertCommit at h
  by_cases hi : (insertSections env fn fm sc secs ops).1 = true
  · rw [if_pos hi] at h
    by_cases hco : env.commitOk = true
    · rw [if_pos hco] at h
      rw [insertedRows_append] at h
      rcases List.mem_append.mp h with h1 | h1
      · exact insertSections_rows env fn fm sc secs ops row h1
      · simp [insertedRows] at h1
    · rw [if_neg hco] at h
      rw [insertedRows_append] at h
      rcases List.mem_append.mp h with h1 | h1
      · exact insertSections_rows env fn fm sc secs ops row h1
      · simp [insertedRows] at h1
  · rw [if_neg hi] at h
    exact insertSections_rows env fn fm sc secs ops row h

/-- Row provenance through the Postgres transaction block. -/
theorem pgTransaction_rows (env : StoreEnv) (fw : FileWhere) (fn : String)
    (fm sc : Int) (secs : List SectionDetails) (ops0 : List DbOp)
    (mc : Nat) (row : Row)
    (h : row ∈ insertedRows
      (pgTransaction env fw fn fm sc secs ops0 mc).2) :
    row ∈ insertedRows ops0 ∨ ∃ sd ∈ secs, row = mkRow fn fm sc sd := by
  unfold pgTransaction at h
  have hb : insertedRows (ops0 ++ [DbOp.beginTxn]) = insertedRows ops0 := by
    rw [insertedRows_append]; simp [insertedRows]
  have hbd : insertedRows (ops0 ++ [DbOp.beginTxn] ++ [DbOp.deleteRows fw]) =
      insertedRows ops0 := by
    rw [insertedRows_append, hb]; simp [insertedRows]
  by_cases hbg : env.beginOk = true
  · rw [if_pos hbg] at h
    by_cases hmc : 0 < mc
    · rw [if_pos hmc] at h
      by_cases hd : env.deleteOk = true
      · rw [if_pos hd] at h
        rcases pgInsertCommit_rows env fn fm sc secs _ row h with h1 | h1
        · rw [hbd] at h1; exact Or.inl h1
        · exact Or.inr h1
      · rw [if_neg hd] at h
        rw [hbd] at h; exact Or.inl h
    · rw [if_neg hmc] at h
      rcases pgInsertCommit_rows env fn fm sc secs _ row h with h1 | h1
      · rw [hb] at h1; exact Or.inl h1
      · exact Or.inr h1
  · rw [if_neg hbg] at h
    rw [hb] at h; exact Or.inl h

/-- Row provenance through the SQLite transaction block. -/
theorem sqliteTransaction_rows (env : StoreEnv) (fw : FileWhere)
    (fn : String) (fm sc : Int) (secs : List SectionDetails)
    (ops0 : List DbOp) (mc : Nat) (row : Row)
    (h : row ∈ insertedRows
      (sqliteTransaction env fw fn fm sc secs ops0 mc).2) :
    row ∈ insertedRows ops0 ∨ ∃ sd ∈ secs, row = mkRow fn fm sc sd := by
  unfold sqliteTransaction at h
  have hb : insertedRows (ops0 ++ [DbOp.beginTxn]) = insertedRows ops0 := by
    rw [insertedRows_append]; simp [insertedRows]
  have hbd : insertedRows (ops0 ++ [DbOp.beginTxn] ++ [DbOp.deleteRows fw]) =
      insertedRows ops0 := by
    rw [insertedRows_append, hb]; simp [insertedRows]
  by_cases hbg : env.beginOk = true
  · rw [if_pos hbg] at h
    by_cases hmc : 0 < mc
    · rw [if_pos hmc] at h
      by_cases hd : env.deleteOk = true
      · rw [if_pos hd] at h
        rcases sqliteInsertCommit_rows env fn fm sc secs _ row h with h1 | h1
        · rw [hbd] at h1; exact Or.inl h1
        · exact Or.inr h1
      · rw [if_neg hd] at h
        rw [hbd] at h; exact Or.inl h
    · rw [if_neg hmc] at h
      rcases sqliteInsertCommit_rows env fn fm sc secs _ row h with h1 | h1
      · rw [hb] at h1; exact Or.inl h1
      · exact Or.inr h1
  · rw [if_neg hbg] at h
    rw [hb] at h; exact Or.inl h

/-- Every row the Postgres sync inserts in normal mode is built from a
section of the post-preservation list. -/
theorem syncPg_rows (env : StoreEnv) (fn : String) (fm sc : Int)
    (secs : List SectionDetails) (row : Row)
    (h : row ∈ insertedRows
      (syncPostgresFileSeries env false fn fm sc secs).2) :
    ∃ sd ∈ applyMatchRows secs env.matchRows, row = mkRow fn fm sc sd := by
  unfold syncPostgresFileSeries at h
  cases hpv : parseFileVersion fn with
  | none => rw [hpv] at h; simp [insertedRows] at h
  | some bl =>
    rw [hpv] at h
    simp only at h
    by_cases hext : ((fileExtents secs).1 == hpterror ||
        (fileExtents secs).2 == hpterror) = true
    · rw [if_pos hext] at h; simp [insertedRows] at h
    · rw [if_neg hext] at h
      simp only [Bool.false_eq_true, if_false] at h
      by_cases hsel : env.selectOk = true
      · rw [if_pos hsel] at h
        rcases pgTransaction_rows env _ fn fm sc _ _ _ row h with h1 | h1
        · simp [insertedRows] at h1
        · exact h1
      · rw [if_neg hsel] at h
        simp [insertedRows] at h


/-- Every row the SQLite sync inserts in normal mode is built from a
section of the post-preservation list (which equals the Postgres one). -/
theorem syncSqlite_rows (env : StoreEnv) (fn : String) (fm sc : Int)
    (secs : List SectionDetails) (row : Row)
    (h : row ∈ insertedRows
      (syncSQLiteFileSeries env false fn fm sc secs).2) :
    ∃ sd ∈ applyMatchRows secs env.matchRows, row = mkRow fn fm sc sd := by
  unfold syncSQLiteFileSeries at h
  cases hpv : parseFileVersion fn with
  | none => rw [hpv] at h; simp [insertedRows] at h
  | some bl =>
    rw [hpv] at h
    simp only at h
    by_cases hext : ((fileExtents secs).1 == hpterror ||
        (fileExtents secs).2 == hpterror) = true
    · rw [if_pos hext] at h; simp [insertedRows] at h
    · rw [if_neg hext] at h
      simp only [Bool.false_eq_true, if_false] at h
      by_cases hsel : env.selectOk = true
      · rw [if_pos hsel] at h
        rw [sqliteApplyRows_eq] at h
        rcases sqliteTransaction_rows env _ fn fm sc _ _ _ row h with h1 | h1
        · simp [insertedRows] at h1
        · exact h1
      · rw [if_neg hsel] at h
        simp [insertedRows] at h

/-- Claim C2.  After reconciling a file in normal mode (either backend),
every inserted row satisfies the preservation contract: its scanned column
is the scan time unconditionally; when a previously stored matched row
agrees on (network, station, location, channel, quality, digest) — the
program's realization of the claim's identifier/version/digest key — the
row's updated column carries that matched row's updated time (the last
such row when several agree), and otherwise it carries the file
modification time.  The hypothesis that every section enters with
updated = filemodtime is established by the aggregator (newSection sets
updated from the file's modification time and no scan step changes it). -/
theorem C2_preservation (env : StoreEnv) (fn : String) (fm sc : Int)
    (secs : List SectionDetails) (hupd : ∀ sd ∈ secs, sd.updated = fm) :
    (∀ row ∈ insertedRows
        (syncPostgresFileSeries env false fn fm sc secs).2,
      preservationOK env fm sc row) ∧
    (∀ row ∈ insertedRows
        (syncSQLiteFileSeries env false fn fm sc secs).2,
      preservationOK env fm sc row) := by
  have key : ∀ row : Row,
      (∃ sd ∈ applyMatchRows secs env.matchRows, row = mkRow fn fm sc sd) →
      preservationOK env fm sc row := by
    rintro row ⟨sd, hsd, rfl⟩
    rw [applyMatchRows_eq_map] at hsd
    obtain ⟨sd0, hsd0, rfl⟩ := List.mem_map.mp hsd
    obtain ⟨u, hu⟩ := applyRowsToSection_shape env.matchRows sd0
    have hkeystable : ∀ m : MatchRow,
        rowKeyMatches m
            (mkRow fn fm sc (applyRowsToSection env.matchRows sd0)) =
          rowMatchesSection m sd0 := by
      intro m
      have h1 : rowKeyMatches m
          (mkRow fn fm sc (applyRowsToSection env.matchRows sd0)) =
          rowMatchesSection m (applyRowsToSection env.matchRows sd0) := rfl
      rw [h1, hu, rowMatchesSection_set_updated]
    have hrowupd : (mkRow fn fm sc
        (applyRowsToSection env.matchRows sd0)).updated =
        (applyRowsToSection env.matchRows sd0).updated := rfl
    refine ⟨rfl, ?_, ?_⟩
    · intro hsome
      rcases applyRowsToSection_updated env.matchRows sd0 with
        ⟨r, hr, hm, hru⟩ | ⟨hall, hru⟩
      · exact ⟨r, hr, by rw [hkeystable r]; exact hm,
          by rw [hrowupd, hru]⟩
      · exfalso
        obtain ⟨m, hmm, hmt⟩ := hsome
        rw [hkeystable m, hall m hmm] at hmt
        exact Bool.false_ne_true hmt
    · intro hnone
      rcases applyRowsToSection_updated env.matchRows sd0 with
        ⟨r, hr, hm, hru⟩ | ⟨hall, hru⟩
      · exfalso
        have h2 := hnone r hr
        rw [hkeystable r, hm] at h2
        exact absurd h2 (by simp)
      · rw [hrowupd, hru]
        exact hupd sd0 hsd0
  constructor
  · intro row h; exact key row (syncPg_rows env fn fm sc secs row h)
  · intro row h; exact key row (syncSqlite_rows env fn fm sc secs row h)

/-- Claim C2, witness: the running example against a store holding one
matched row with an older updated time. -/
theorem C2_preservation_witness :
    preservationOK envAllOk exFilemodtime exScantime exInsertedRow :=
  (C2_preservation envAllOk exFilename exFilemodtime exScantime secs1
      (by decide)).1
    exInsertedRow (by decide)

/-- Trace of the insert loop: the incoming operations followed by one
INSERT per processed section. -/
theorem insertSections_shape (env : StoreEnv) (fn : String) (fm sc : Int) :
    ∀ (secs : List SectionDetails) (ops : List DbOp), ∃ rows : List Row,
      (insertSections env fn fm sc secs ops).2 =
        ops ++ rows.map DbOp.insertRow := by
  intro secs
  induction secs with
  | nil => intro ops; exact ⟨[], by simp [insertSections]⟩
  | cons sd rest ih =>
    intro ops
    simp only [insertSections]
    by_cases hins : env.insertOk = true
    · rw [if_pos hins]
      obtain ⟨rows, hr⟩ := ih (ops ++ [DbOp.insertRow (mkRow fn fm sc sd)])
      exact ⟨mkRow fn fm sc sd :: rows, by rw [hr]; simp⟩
    · rw [if_neg hins]
      exact ⟨[mkRow fn fm sc sd], by simp⟩

/-- Success of the insert loop over a nonempty section list requires the
INSERTs to succeed. -/
theorem insertSections_ok (env : StoreEnv) (fn : String) (fm sc : Int) :
    ∀ (secs : List SectionDetails) (ops : List DbOp),
      (insertSections env fn fm sc secs ops).1 = true → secs ≠ [] →
      env.insertOk = true := by
  intro secs
  cases secs with
  | nil => intro ops _ hne; exact absurd rfl hne
  | cons sd rest =>
    intro ops h _
    simp only [insertSections] at h
    by_cases hins : env.insertOk = true
    · exact hins
    · rw [if_neg hins] at h; exact absurd h (by simp)

/-- Success conditions and trace shape of the Postgres transaction block. -/
theorem pgTransaction_success (env : StoreEnv) (fw : FileWhere)
    (fn : String) (fm sc : Int) (secs : List SectionDetails)
    (ops0 : List DbOp) (mc : Nat)
    (h : (pgTransaction env fw fn fm sc secs ops0 mc).1 = 0) :
    env.beginOk = true ∧ (0 < mc → env.deleteOk = true) ∧
    (secs ≠ [] → env.insertOk = true) ∧
    ∃ (rows : List Row) (dels : List DbOp),
      (∀ op ∈ dels, isDeleteOp op = true) ∧
      (pgTransaction env fw fn fm sc secs ops0 mc).2 =
        ops0 ++ DbOp.beginTxn ::
          (dels ++ rows.map DbOp.insertRow ++ [DbOp.commit]) := by
  unfold pgTransaction at h ⊢
  by_cases hbg : env.beginOk = true
  · rw [if_pos hbg] at h ⊢
    by_cases hmc : 0 < mc
    · rw [if_pos hmc] at h ⊢
      by_cases hd : env.deleteOk = true
      · rw [if_pos hd] at h ⊢
        unfold pgInsertCommit at h ⊢
        by_cases hi : (insertSections env fn fm sc secs
            (ops0 ++ [DbOp.beginTxn] ++ [DbOp.deleteRows fw])).1 = true
        · rw [if_pos hi] at h ⊢
          obtain ⟨rows, hr⟩ := insertSections_shape env fn fm sc secs
            (ops0 ++ [DbOp.beginTxn] ++ [DbOp.deleteRows fw])
          refine ⟨hbg, fun _ => hd,
            fun hne => insertSections_ok env fn fm sc secs _ hi hne,
            rows, [DbOp.deleteRows fw], by simp [isDeleteOp], ?_⟩
          rw [hr]
          simp
        · rw [if_neg hi] at h; exact absurd h (by simp)
      · rw [if_neg hd] at h; exact absurd h (by simp)
    · rw [if_neg hmc] at h ⊢
      unfold pgInsertCommit at h ⊢
      by_cases hi : (insertSections env fn fm sc secs
          (ops0 ++ [DbOp.beginTxn])).1 = true
      · rw [if_pos hi] at h ⊢
        obtain ⟨rows, hr⟩ := insertSections_shape env fn fm sc secs
          (ops0 ++ [DbOp.beginTxn])
        refine ⟨hbg, fun hc => absurd hc hmc,
          fun hne => insertSections_ok env fn fm sc secs _ hi hne,
          rows, [], by simp, ?_⟩
        rw [hr]
        simp
      · rw [if_neg hi] at h; exact absurd h (by simp)
  · rw [if_neg hbg] at h; exact absurd h (by simp)

/-- Success conditions and trace shape of the SQLite transaction block;
unlike Postgres, success requires the COMMIT to succeed. -/
theorem sqliteTransaction_success (env : StoreEnv) (fw : FileWhere)
    (fn : String) (fm sc : Int) (secs : List SectionDetails)
    (ops0 : List DbOp) (mc : Nat)
    (h : (sqliteTransaction env fw fn fm sc secs ops0 mc).1 = 0) :
    env.beginOk = true ∧ env.commitOk = true ∧ (0 < mc → env.deleteOk = true) ∧
    (secs ≠ [] → env.insertOk = true) ∧
    ∃ (rows : List Row) (dels : List DbOp),
      (∀ op ∈ dels, isDeleteOp op = true) ∧
      (sqliteTransaction env fw fn fm sc secs ops0 mc).2 =
        ops0 ++ DbOp.beginTxn ::
          (dels ++ rows.map DbOp.insertRow ++ [DbOp.commit]) := by
  unfold sqliteTransaction at h ⊢
  by_cases hbg : env.beginOk = true
  · rw [if_pos hbg] at h ⊢
    by_cases hmc : 0 < mc
    · rw [if_pos hmc] at h ⊢
      by_cases hd : env.deleteOk = true
      · rw [if_pos hd] at h ⊢
        unfold sqliteInsertCommit at h ⊢
        by_cases hi : (insertSections env fn fm sc secs
            (ops0 ++ [DbOp.beginTxn] ++ [DbOp.deleteRows fw])).1 = true
        · rw [if_pos hi] at h ⊢
          by_cases hco : env.commitOk = true
          · rw [if_pos hco] at h ⊢
            obtain ⟨rows, hr⟩ := insertSections_shape env fn fm sc secs
              (ops0 ++ [DbOp.beginTxn] ++ [DbOp.deleteRows fw])
            refine ⟨hbg, hco, fun _ => hd,
              fun hne => insertSections_ok env fn fm sc secs _ hi hne,
              rows, [DbOp.deleteRows fw], by simp [isDeleteOp], ?_⟩
            rw [hr]
            simp
          · rw [if_neg hco] at h; exact absurd h (by simp)
        · rw [if_neg hi] at h; exact absurd h (by simp)
      · rw [if_neg hd] at h; exact absurd h (by simp)
    · rw [if_neg hmc] at h ⊢
      unfold sqliteInsertCommit at h ⊢
      by_cases hi : (insertSections env fn fm sc secs
          (ops0 ++ [DbOp.beginTxn])).1 = true
      · rw [if_pos hi] at h ⊢
        by_cases hco : env.commitOk = true
        · rw [if_pos hco] at h ⊢
          obtain ⟨rows, hr⟩ := insertSections_shape env fn fm sc secs
            (ops0 ++ [DbOp.beginTxn])
          refine ⟨hbg, hco, fun hc => absurd hc hmc,
            fun hne => insertSections_ok env fn fm sc secs _ hi hne,
            rows, [], by simp, ?_⟩
          rw [hr]
          simp
        · rw [if_neg hco] at h; exact absurd h (by simp)
      · rw [if_neg hi] at h; exact absurd h (by simp)
  · rw [if_neg hbg] at h; exact absurd h (by simp)

/-- The extent fold of an empty section list stays at the HPTERROR
sentinels. -/
theorem fileExtents_nil : fileExtents [] = (hpterror, hpterror) := rfl

/-- Success conditions and trace shape of SyncPostgresFileSeries.  Note the
absence of commitOk from the conclusions: the COMMIT result is not
checked. -/
theorem pg_success (env : StoreEnv) (nu : Bool) (fn : String) (fm sc : Int)
    (secs : List SectionDetails)
    (h : (syncPostgresFileSeries env nu fn fm sc secs).1 = 0) :
    env.beginOk = true ∧ env.insertOk = true ∧
    (nu = false → env.selectOk = true ∧
      (env.matchRows ≠ [] → env.deleteOk = true)) ∧
    ∃ (w : FileWhere) (rows : List Row) (dels : List DbOp),
      (∀ op ∈ dels, isDeleteOp op = true) ∧
      (syncPostgresFileSeries env nu fn fm sc secs).2 =
        (if nu then ([] : List DbOp) else [DbOp.selectMatch w]) ++
          DbOp.beginTxn ::
            (dels ++ rows.map DbOp.insertRow ++ [DbOp.commit]) := by
  unfold syncPostgresFileSeries at h ⊢
  cases hpv : parseFileVersion fn with
  | none => rw [hpv] at h; simp at h
  | some bl =>
    rw [hpv] at h
    simp only at h ⊢
    by_cases hext : ((fileExtents secs).1 == hpterror ||
        (fileExtents secs).2 == hpterror) = true
    · rw [if_pos hext] at h; exact absurd h (by simp)
    · rw [if_neg hext] at h ⊢
      have hne : secs ≠ [] := by
        intro hnil
        rw [hnil, fileExtents_nil] at hext
        exact hext (by simp)
      cases nu with
      | true =>
        obtain ⟨hbg, hdel, hins, rows, dels, hd, hshape⟩ :=
          pgTransaction_success env _ fn fm sc secs [] 0 h
        exact ⟨hbg, hins hne, by simp,
          mkFileWhere bl fn (fileExtents secs).2 (fileExtents secs).1,
          rows, dels, hd, by simpa using hshape⟩
      | false =>
        by_cases hsel : env.selectOk = true
        · rw [if_pos hsel] at h ⊢
          have hne2 : applyMatchRows secs env.matchRows ≠ [] := by
            rw [applyMatchRows_eq_map]
            simpa using hne
          obtain ⟨hbg, hdel, hins, rows, dels, hd, hshape⟩ :=
            pgTransaction_success env _ fn fm sc _ _ env.matchRows.length h
          refine ⟨hbg, hins hne2, ?_,
            mkFileWhere bl fn (fileExtents secs).2 (fileExtents secs).1,
            rows, dels, hd, by simpa using hshape⟩
          intro _
          refine ⟨hsel, ?_⟩
          intro hmr
          exact hdel (by simpa [List.length_pos] using hmr)
        · rw [if_neg hsel] at h; exact absurd h (by simp)

/-- Success conditions and trace shape of SyncSQLiteFileSeries, including
the checked COMMIT. -/
theorem sqlite_success (env : StoreEnv) (nu : Bool) (fn : String)
    (fm sc : Int) (secs : List SectionDetails)
    (h : (syncSQLiteFileSeries env nu fn fm sc secs).1 = 0) :
    env.beginOk = true ∧ env.insertOk = true ∧ env.commitOk = true ∧
    (nu = false → env.selectOk = true ∧
      (env.matchRows ≠ [] → env.deleteOk = true)) ∧
    ∃ (w : FileWhere) (rows : List Row) (dels : List DbOp),
      (∀ op ∈ dels, isDeleteOp op = true) ∧
      (syncSQLiteFileSeries env nu fn fm sc secs).2 =
        (if nu then ([] : List DbOp) else [DbOp.selectMatch w]) ++
          DbOp.beginTxn ::
            (dels ++ rows.map DbOp.insertRow ++ [DbOp.commit]) := by
  unfold syncSQLiteFileSeries at h ⊢
  cases hpv : parseFileVersion fn with
  | none => rw [hpv] at h; simp at h
  | some bl =>
    rw [hpv] at h
    simp only at h ⊢
    by_cases hext : ((fileExtents secs).1 == hpterror ||
        (fileExtents secs).2 == hpterror) = true
    · rw [if_pos hext] at h; exact absurd h (by simp)
    · rw [if_neg hext] at h ⊢
      have hne : secs ≠ [] := by
        intro hnil
        rw [hnil, fileExtents_nil] at hext
        exact hext (by simp)
      cases nu with
      | true =>
        obtain ⟨hbg, hco, hdel, hins, rows, dels, hd, hshape⟩ :=
          sqliteTransaction_success env _ fn fm sc secs [] 0 h
        exact ⟨hbg, hins hne, hco, by simp,
          mkFileWhere bl fn (fileExtents secs).2 (fileExtents secs).1,
          rows, dels, hd, by simpa using hshape⟩
      | false =>
        by_cases hsel : env.selectOk = true
        · rw [if_pos hsel] at h ⊢
          have hne2 : sqliteApplyRows 0 env.matchRows secs ≠ [] := by
            rw [sqliteApplyRows_eq, applyMatchRows_eq_map]
            simpa using hne
          obtain ⟨hbg, hco, hdel, hins, rows, dels, hd, hshape⟩ :=
            sqliteTransaction_success env _ fn fm sc _ _
              env.matchRows.length h
          refine ⟨hbg, hins hne2, hco, ?_,
            mkFileWhere bl fn (fileExtents secs).2 (fileExtents secs).1,
            rows, dels, hd, by simpa using hshape⟩
          intro _
          refine ⟨hsel, ?_⟩
          intro hmr
          exact hdel (by simpa [List.length_pos] using hmr)
        · rw [if_neg hsel] at h; exact absurd h (by simp)

/-- A SELECT operation is a selectMatch constructor. -/
theorem selectOp_cases (op : DbOp) (h : isSelectOp op = true) :
    ∃ w, op = DbOp.selectMatch w := by
  cases op <;> simp [isSelectOp] at h ⊢

/-- A DELETE operation is a deleteRows constructor. -/
theorem deleteOp_cases (op : DbOp) (h : isDeleteOp op = true) :
    ∃ w, op = DbOp.deleteRows w := by
  cases op <;> simp [isDeleteOp] at h ⊢

/-- A takeWhile over a prefix that wholly satisfies the predicate keeps the
prefix. -/
theorem takeWhile_append_all (p : DbOp → Bool) (l1 l2 : List DbOp)
    (h : ∀ op ∈ l1, p op = true) :
    (l1 ++ l2).takeWhile p = l1 ++ l2.takeWhile p := by
  induction l1 with
  | nil => simp
  | cons a t ih =>
    simp only [List.cons_append, List.takeWhile_cons,
      h a (List.mem_cons_self a t)]
    rw [ih (fun op hop => h op (List.mem_cons_of_mem _ hop))]
    simp

/-- A dropWhile over a prefix that wholly satisfies the predicate discards
the prefix. -/
theorem dropWhile_append_all (p : DbOp → Bool) (l1 l2 : List DbOp)
    (h : ∀ op ∈ l1, p op = true) :
    (l1 ++ l2).dropWhile p = l2.dropWhile p := by
  induction l1 with
  | nil => simp
  | cons a t ih =>
    simp only [List.cons_append, List.dropWhile_cons,
      h a (List.mem_cons_self a t)]
    rw [ih (fun op hop => h op (List.mem_cons_of_mem _ hop))]
    simp

/-- A predicate false on INSERT operations counts none of them. -/
theorem countP_insertRows (rows : List Row) (p : DbOp → Bool)
    (hp : ∀ r : Row, p (DbOp.insertRow r) = false) :
    (rows.map DbOp.insertRow).countP p = 0 := by
  induction rows with
  | nil => rfl
  | cons r rs ih => simp [List.countP_cons, hp, ih]

/-- A predicate true on INSERT operations accepts all of them. -/
theorem all_insertRows (rows : List Row) (p : DbOp → Bool)
    (hp : ∀ r : Row, p (DbOp.insertRow r) = true) :
    (rows.map DbOp.insertRow).all p = true := by
  induction rows with
  | nil => rfl
  | cons r rs ih => simp [hp, ih]

/-- Layout facts for a success trace: in a trace of the form
prefix-of-SELECTs, BEGIN, DELETEs, INSERTs, COMMIT, the DELETEs and INSERTs
all lie inside the single transaction and every SELECT precedes it. -/
theorem txn_layout_shape (pre : List DbOp) (dels : List DbOp)
    (rows : List Row)
    (hpre : ∀ op ∈ pre, isSelectOp op = true)
    (hdels : ∀ op ∈ dels, isDeleteOp op = true) :
    allOpsInsideTxn isDeleteOrInsertOp
      (pre ++ DbOp.beginTxn ::
        (dels ++ rows.map DbOp.insertRow ++ [DbOp.commit])) = true ∧
    selectOnlyBeforeTxn
      (pre ++ DbOp.beginTxn ::
        (dels ++ rows.map DbOp.insertRow ++ [DbOp.commit])) = true := by
  have hpre2 : ∀ op ∈ pre, (!isBeginOp op) = true := by
    intro op hop
    obtain ⟨w, rfl⟩ := selectOp_cases op (hpre op hop)
    rfl
  have hdels2 : ∀ q : DbOp → Bool, (∀ w, q (DbOp.deleteRows w) = true) →
      ∀ op ∈ dels, q op = true := by
    intro q hq op hop
    obtain ⟨w, rfl⟩ := deleteOp_cases op (hdels op hop)
    exact hq w
  have hbef : opsBeforeTxn
      (pre ++ DbOp.beginTxn ::
        (dels ++ rows.map DbOp.insertRow ++ [DbOp.commit])) = pre := by
    unfold opsBeforeTxn
    rw [takeWhile_append_all _ pre _ hpre2]
    simp [List.takeWhile_cons, isBeginOp]
  have hassoc : pre ++ DbOp.beginTxn ::
      (dels ++ rows.map DbOp.insertRow ++ [DbOp.commit]) =
      (pre ++ DbOp.beginTxn :: (dels ++ rows.map DbOp.insertRow)) ++
        [DbOp.commit] := by
    simp
  have haft : opsAfterTxn
      (pre ++ DbOp.beginTxn ::
        (dels ++ rows.map DbOp.insertRow ++ [DbOp.commit])) = [] := by
    unfold opsAfterTxn
    rw [hassoc, dropWhile_append_all _ _ [DbOp.commit] ?hall]
    · simp [List.dropWhile_cons, isCommitOp]
    case hall =>
      intro op hop
      simp only [List.mem_append, List.mem_cons] at hop
      rcases hop with hop | rfl | hop
      · obtain ⟨w, rfl⟩ := selectOp_cases op (hpre op hop)
        rfl
      · rfl
      · rcases hop with hop | hop
        · obtain ⟨w, rfl⟩ := deleteOp_cases op (hdels op hop)
          rfl
        · obtain ⟨r, -, rfl⟩ := List.mem_map.mp hop
          rfl
  have hcb : (pre ++ DbOp.beginTxn ::
      (dels ++ rows.map DbOp.insertRow ++ [DbOp.commit])).countP
        (fun op => isBeginOp op) = 1 := by
    have h1 : pre.countP (fun op => isBeginOp op) = 0 := by
      rw [List.countP_eq_zero]
      intro op hop
      obtain ⟨w, rfl⟩ := selectOp_cases op (hpre op hop)
      simp [isBeginOp]
    have h2 : dels.countP (fun op => isBeginOp op) = 0 := by
      rw [List.countP_eq_zero]
      intro op hop
      obtain ⟨w, rfl⟩ := deleteOp_cases op (hdels op hop)
      simp [isBeginOp]
    have h3 : (rows.map DbOp.insertRow).countP (fun op => isBeginOp op) = 0 :=
      countP_insertRows rows _ (fun r => rfl)
    have hrest : (dels ++ rows.map DbOp.insertRow ++ [DbOp.commit]).countP
        (fun op => isBeginOp op) = 0 := by
      rw [List.countP_append, List.countP_append, h2, h3]
      rfl
    rw [List.countP_append, List.countP_cons, hrest, h1]
    rfl
  have hcc : (pre ++ DbOp.beginTxn ::
      (dels ++ rows.map DbOp.insertRow ++ [DbOp.commit])).countP
        (fun op => isCommitOp op) = 1 := by
    have h1 : pre.countP (fun op => isCommitOp op) = 0 := by
      rw [List.countP_eq_zero]
      intro op hop
      obtain ⟨w, rfl⟩ := selectOp_cases op (hpre op hop)
      simp [isCommitOp]
    have h2 : dels.countP (fun op => isCommitOp op) = 0 := by
      rw [List.countP_eq_zero]
      intro op hop
      obtain ⟨w, rfl⟩ := deleteOp_cases op (hdels op hop)
      simp [isCommitOp]
    have h3 : (rows.map DbOp.insertRow).countP (fun op => isCommitOp op) = 0 :=
      countP_insertRows rows _ (fun r => rfl)
    have hrest : (dels ++ rows.map DbOp.insertRow).countP
        (fun op => isCommitOp op) = 0 := by
      rw [List.countP_append, h2, h3]
    rw [List.countP_append, List.countP_cons, List.countP_append, hrest, h1]
    rfl
  constructor
  · unfold allOpsInsideTxn
    rw [hbef, haft, hcb, hcc]
    have h4 : pre.all (fun op => !isCommitOp op) = true := by
      rw [List.all_eq_true]
      intro op hop
      obtain ⟨w, rfl⟩ := selectOp_cases op (hpre op hop)
      rfl
    have h5 : pre.all (fun op => !isDeleteOrInsertOp op) = true := by
      rw [List.all_eq_true]
      intro op hop
      obtain ⟨w, rfl⟩ := selectOp_cases op (hpre op hop)
      rfl
    simp [h4, h5]
  · unfold selectOnlyBeforeTxn
    rw [dropWhile_append_all _ pre _ hpre2]
    have hstep : (DbOp.beginTxn ::
        (dels ++ rows.map DbOp.insertRow ++ [DbOp.commit])).dropWhile
          (fun op => !isBeginOp op) =
        DbOp.beginTxn ::
          (dels ++ rows.map DbOp.insertRow ++ [DbOp.commit]) := by
      simp [List.dropWhile_cons, isBeginOp]
    rw [hstep]
    rw [List.all_cons]
    have h6 : (dels ++ rows.map DbOp.insertRow ++ [DbOp.commit]).all
        (fun op => !isSelectOp op) = true := by
      rw [List.all_append, List.all_append]
      have h7 : dels.all (fun op => !isSelectOp op) = true := by
        rw [List.all_eq_true]
        intro op hop
        obtain ⟨w, rfl⟩ := deleteOp_cases op (hdels op hop)
        rfl
      have h8 : (rows.map DbOp.insertRow).all
          (fun op => !isSelectOp op) = true :=
        all_insertRows rows _ (fun r => rfl)
      rw [Bool.and_eq_true, Bool.and_eq_true]
      exact ⟨⟨h7, h8⟩, rfl⟩
    rw [Bool.and_eq_true]
    exact ⟨rfl, h6⟩

/-- Claim C3, counterexample.  A normal-mode run whose trace contains the
preservation SELECT, the DELETE and an INSERT: the three are NOT all
inside the transaction, because the SELECT is issued before BEGIN
TRANSACTION (mseedindex.c lines 699-703 versus 754; likewise 1331 versus
1403). -/
theorem C3_claim_counterexample :
    (syncPostgresFileSeries envAllOk false exFilename exFilemodtime
        exScantime secs1).2.countP (fun op => isSelectOp op) = 1 ∧
    (syncPostgresFileSeries envAllOk false exFilename exFilemodtime
        exScantime secs1).2.countP (fun op => isDeleteOp op) = 1 ∧
    (syncPostgresFileSeries envAllOk false exFilename exFilemodtime
        exScantime secs1).2.countP (fun op => isInsertOp op) = 1 ∧
    allOpsInsideTxn isSelectDeleteOrInsertOp
      (syncPostgresFileSeries envAllOk false exFilename exFilemodtime
        exScantime secs1).2 = false := by decide

/-- Claim C3, amended.  In every successful normal-mode run of either
backend, the DELETE and the INSERTs all execute inside the one transaction
(between its unique BEGIN and unique COMMIT), while the
preservation-candidate SELECT executes BEFORE the transaction begins, not
within it. -/
theorem C3_transaction_layout (env : StoreEnv) (fn : String) (fm sc : Int)
    (secs : List SectionDetails) :
    ((syncPostgresFileSeries env false fn fm sc secs).1 = 0 →
      allOpsInsideTxn isDeleteOrInsertOp
          (syncPostgresFileSeries env false fn fm sc secs).2 = true ∧
        selectOnlyBeforeTxn
          (syncPostgresFileSeries env false fn fm sc secs).2 = true) ∧
    ((syncSQLiteFileSeries env false fn fm sc secs).1 = 0 →
      allOpsInsideTxn isDeleteOrInsertOp
          (syncSQLiteFileSeries env false fn fm sc secs).2 = true ∧
        selectOnlyBeforeTxn
          (syncSQLiteFileSeries env false fn fm sc secs).2 = true) := by
  constructor
  · intro h
    obtain ⟨-, -, -, w, rows, dels, hd, hshape⟩ :=
      pg_success env false fn fm sc secs h
    have hshape2 : (syncPostgresFileSeries env false fn fm sc secs).2 =
        [DbOp.selectMatch w] ++ DbOp.beginTxn ::
          (dels ++ rows.map DbOp.insertRow ++ [DbOp.commit]) := by
      simpa using hshape
    rw [hshape2]
    exact txn_layout_shape [DbOp.selectMatch w] dels rows
      (by intro op hop; simp at hop; subst hop; rfl) hd
  · intro h
    obtain ⟨-, -, -, -, w, rows, dels, hd, hshape⟩ :=
      sqlite_success env false fn fm sc secs h
    have hshape2 : (syncSQLiteFileSeries env false fn fm sc secs).2 =
        [DbOp.selectMatch w] ++ DbOp.beginTxn ::
          (dels ++ rows.map DbOp.insertRow ++ [DbOp.commit]) := by
      simpa using hshape
    rw [hshape2]
    exact txn_layout_shape [DbOp.selectMatch w] dels rows
      (by intro op hop; simp at hop; subst hop; rfl) hd

/-- Claim C3, amended, witness: the running example against both
backends. -/
theorem C3_transaction_layout_witness :
    (allOpsInsideTxn isDeleteOrInsertOp
        (syncPostgresFileSeries envAllOk false exFilename exFilemodtime
          exScantime secs1).2 = true ∧
      selectOnlyBeforeTxn
        (syncPostgresFileSeries envAllOk false exFilename exFilemodtime
          exScantime secs1).2 = true) ∧
    (allOpsInsideTxn isDeleteOrInsertOp
        (syncSQLiteFileSeries envAllOk false exFilename exFilemodtime
          exScantime secs1).2 = true ∧
      selectOnlyBeforeTxn
        (syncSQLiteFileSeries envAllOk false exFilename exFilemodtime
          exScantime secs1).2 = true) :=
  ⟨(C3_transaction_layout envAllOk exFilename exFilemodtime exScantime
      secs1).1 (by decide),
   (C3_transaction_layout envAllOk exFilename exFilemodtime exScantime
      secs1).2 (by decide)⟩

/-- Claim C8, counterexample.  With every store operation succeeding except
the COMMIT, the Postgres file synchronization still reports success
(returns 0): the source executes `PQexec (dbconn, "COMMIT")` and discards
the result without checking it (mseedindex.c lines 1008-1013), so a
failing COMMIT is not fatal for the current file. -/
theorem C8_claim_counterexample :
    envCommitFail.commitOk = false ∧
    (syncPostgresFileSeries envCommitFail false exFilename exFilemodtime
        exScantime secs1).1 = 0 ∧
    (syncPostgresFileSeries envCommitFail false exFilename exFilemodtime
        exScantime secs1).2.countP (fun op => isCommitOp op) = 1 := by
  decide

/-- Claim C8, amended.  Every store error during connect/prepare/execute
(the SELECT including its preparation, BEGIN, DELETE, INSERT) is fatal for
the current file in both backends, and a COMMIT failure is fatal in the
SQLite backend; the Postgres backend does not check the COMMIT result, so
only its non-COMMIT operations are covered.  Stated contrapositively: a
run that reports success had all checked operations succeed. -/
theorem C8_store_errors (env : StoreEnv) (nu : Bool) (fn : String)
    (fm sc : Int) (secs : List SectionDetails) :
    ((syncSQLiteFileSeries env nu fn fm sc secs).1 = 0 →
      env.beginOk = true ∧ env.insertOk = true ∧ env.commitOk = true ∧
        (nu = false → env.selectOk = true ∧
          (env.matchRows ≠ [] → env.deleteOk = true))) ∧
    ((syncPostgresFileSeries env nu fn fm sc secs).1 = 0 →
      env.beginOk = true ∧ env.insertOk = true ∧
        (nu = false → env.selectOk = true ∧
          (env.matchRows ≠ [] → env.deleteOk = true))) := by
  constructor
  · intro h
    obtain ⟨h1, h2, h3, h4, -⟩ := sqlite_success env nu fn fm sc secs h
    exact ⟨h1, h2, h3, h4⟩
  · intro h
    obtain ⟨h1, h2, h3, -⟩ := pg_success env nu fn fm sc secs h
    exact ⟨h1, h2, h3⟩

/-- Claim C8, amended, witness: the all-succeeding store on the running
example. -/
theorem C8_store_errors_witness :
    (envAllOk.beginOk = true ∧ envAllOk.insertOk = true ∧
      envAllOk.commitOk = true ∧
      (false = false → envAllOk.selectOk = true ∧
        (envAllOk.matchRows ≠ [] → envAllOk.deleteOk = true))) ∧
    (envAllOk.beginOk = true ∧ envAllOk.insertOk = true ∧
      (false = false → envAllOk.selectOk = true ∧
        (envAllOk.matchRows ≠ [] → envAllOk.deleteOk = true))) :=
  ⟨(C8_store_errors envAllOk false exFilename exFilemodtime exScantime
      secs1).1 (by decide),
   (C8_store_errors envAllOk false exFilename exFilemodtime exScantime
      secs1).2 (by decide)⟩

/-- Parsing the escaped-and-quoted form of any value recovers the value. -/
theorem parseSqlQuotedAux_escape (v : List Char) :
    parseSqlQuotedAux (sqlEscapeQuotes v ++ [squote]) = some v := by
  induction v with
  | nil => simp [sqlEscapeQuotes, parseSqlQuotedAux]
  | cons c t ih =>
    by_cases hc : c = squote
    · subst hc
      show parseSqlQuotedAux
        (squote :: squote :: (sqlEscapeQuotes t ++ [squote])) =
          some (squote :: t)
      simp [parseSqlQuotedAux, ih]
    · have hesc : sqlEscapeQuotes (c :: t) ++ [squote] =
          c :: (sqlEscapeQuotes t ++ [squote]) := by
        simp [sqlEscapeQuotes, hc]
      rw [hesc]
      cases heq : sqlEscapeQuotes t ++ [squote] with
      | nil => exact absurd heq (by simp)
      | cons d rest2 =>
        show parseSqlQuotedAux (c :: d :: rest2) = some (c :: t)
        have hcb : (c == squote) = false := by simp [hc]
        simp only [parseSqlQuotedAux, hcb, Bool.false_eq_true, if_false]
        rw [← heq, ih]
        rfl

/-- A successful parse of a quoted literal body determines the input: it is
the escaped value followed by the closing quote. -/
theorem parseSqlQuotedAux_inverts :
    ∀ (n : Nat) (l w : List Char), l.length ≤ n →
      parseSqlQuotedAux l = some w →
      l = sqlEscapeQuotes w ++ [squote] := by
  intro n
  induction n with
  | zero =>
    intro l w hl h
    cases l with
    | nil => simp [parseSqlQuotedAux] at h
    | cons c t => simp at hl
  | succ n ih =>
    intro l w hl h
    cases l with
    | nil => simp [parseSqlQuotedAux] at h
    | cons c t =>
      cases t with
      | nil =>
        simp only [parseSqlQuotedAux] at h
        by_cases hc : (c == squote) = true
        · rw [if_pos hc] at h
          obtain rfl : ([] : List Char) = w := by simpa using h
          have hceq : c = squote := by simpa using hc
          simp [sqlEscapeQuotes, hceq]
        · rw [if_neg hc] at h; exact absurd h (by simp)
      | cons c2 rest =>
        simp only [parseSqlQuotedAux] at h
        by_cases hc : (c == squote) = true
        · rw [if_pos hc] at h
          by_cases hc2 : (c2 == squote) = true
          · rw [if_pos hc2] at h
            cases hw : parseSqlQuotedAux rest with
            | none => rw [hw] at h; simp at h
            | some w2 =>
              rw [hw] at h
              obtain rfl : squote :: w2 = w := by simpa using h
              have hr := ih rest w2 (by simp at hl; omega) hw
              have hceq : c = squote := by simpa using hc
              have hc2eq : c2 = squote := by simpa using hc2
              rw [hceq, hc2eq, hr]
              simp [sqlEscapeQuotes]
          · rw [if_neg hc2] at h; exact absurd h (by simp)
        · rw [if_neg hc] at h
          cases hw : parseSqlQuotedAux (c2 :: rest) with
          | none => rw [hw] at h; simp at h
          | some w2 =>
            rw [hw] at h
            obtain rfl : c :: w2 = w := by simpa using h
            have hr := ih (c2 :: rest) w2 (by simp at hl ⊢; omega) hw
            have hcb : (c == squote) = false := by
              simpa using hc
            rw [hr]
            simp only [sqlEscapeQuotes, hcb, Bool.false_eq_true, if_false]
            rfl

/-- Escaping never shortens a string. -/
theorem sqlEscapeQuotes_length (v : List Char) :
    v.length ≤ (sqlEscapeQuotes v).length := by
  induction v with
  | nil => simp [sqlEscapeQuotes]
  | cons c t ih =>
    simp only [sqlEscapeQuotes]
    by_cases hc : (c == squote) = true
    · rw [if_pos hc]; simp; omega
    · rw [if_neg hc]; simp; omega

/-- A string fixed by escaping contains no single quote. -/
theorem sqlEscapeQuotes_eq_self (v : List Char)
    (h : sqlEscapeQuotes v = v) : squote ∉ v := by
  induction v with
  | nil => simp
  | cons c t ih =>
    simp only [sqlEscapeQuotes] at h
    by_cases hc : (c == squote) = true
    · exfalso
      rw [if_pos hc] at h
      have hlen := congrArg List.length h
      have hge := sqlEscapeQuotes_length t
      simp at hlen
      omega
    · rw [if_neg hc] at h
      have h2 : sqlEscapeQuotes t = t := by
        have := List.cons.injEq c (sqlEscapeQuotes t) c t ▸ h
        exact (List.cons.inj h).2
      have hnt := ih h2
      intro hmem
      rcases List.mem_cons.mp hmem with hcc | hmem2
      · exact hc (by simp [hcc.symm])
      · exact hnt hmem2

/-- A string without single quotes is fixed by escaping. -/
theorem sqlEscapeQuotes_of_not_mem (v : List Char) (h : squote ∉ v) :
    sqlEscapeQuotes v = v := by
  induction v with
  | nil => rfl
  | cons c t ih =>
    have hc : (c == squote) = false := by
      simp only [beq_eq_false_iff_ne, ne_eq]
      intro hcc
      exact h (by rw [hcc]; exact List.mem_cons_self _ _)
    simp only [sqlEscapeQuotes, hc, Bool.false_eq_true, if_false]
    rw [ih (fun hm => h (List.mem_cons_of_mem _ hm))]

/-- Claim C9, counterexample.  The value a-quote-b contains a single quote;
the statement fragment the program builds for it (verbatim substitution
between two quotes, with no escaping) is not a well-formed SQL literal at
all — the SQL reader cannot recover the value from it. -/
theorem C9_claim_counterexample :
    squote ∈ exQuoteVal ∧
    parseSqlQuoted (sqlQuote exQuoteVal) ≠ some exQuoteVal ∧
    parseSqlQuoted (sqlQuote exQuoteVal) = none := by decide

/-- Claim C9, amended.  The encoder applies no escaping: a string value is
substituted verbatim between two single quotes.  Consequently the
generated fragment represents exactly the value if and only if the value
contains no single-quote character. -/
theorem C9_sql_quoting (v : List Char) :
    parseSqlQuoted (sqlQuote v) = some v ↔ squote ∉ v := by
  have hred : parseSqlQuoted (sqlQuote v) =
      parseSqlQuotedAux (v ++ [squote]) := by
    simp [parseSqlQuoted, sqlQuote]
  rw [hred]
  constructor
  · intro h
    have h3 := parseSqlQuotedAux_inverts (v ++ [squote]).length
      (v ++ [squote]) v le_rfl h
    have h4 : v = sqlEscapeQuotes v := by
      have := List.append_cancel_right h3
      exact this
    exact sqlEscapeQuotes_eq_self v h4.symm
  · intro h
    have h2 := parseSqlQuotedAux_escape v
    rw [sqlEscapeQuotes_of_not_mem v h] at h2
    exact h2

/-- The Postgres insert-commit tail only appends to the incoming trace. -/
theorem pgInsertCommit_prefix (env : StoreEnv) (fn : String) (fm sc : Int)
    (secs : List SectionDetails) (ops : List DbOp) :
    ∃ tail, (pgInsertCommit env fn fm sc secs ops).2 = ops ++ tail := by
  unfold pgInsertCommit
  obtain ⟨rows, hr⟩ := insertSections_shape env fn fm sc secs ops
  by_cases hi : (insertSections env fn fm sc secs ops).1 = true
  · rw [if_pos hi]
    exact ⟨rows.map DbOp.insertRow ++ [DbOp.commit], by rw [hr]; simp⟩
  · rw [if_neg hi]
    exact ⟨rows.map DbOp.insertRow, hr⟩

/-- The SQLite insert-commit tail only appends to the incoming trace. -/
theorem sqliteInsertCommit_prefix (env : StoreEnv) (fn : String)
    (fm sc : Int) (secs : List SectionDetails) (ops : List DbOp) :
    ∃ tail, (sqliteInsertCommit env fn fm sc secs ops).2 = ops ++ tail := by
  unfold sqliteInsertCommit
  obtain ⟨rows, hr⟩ := insertSections_shape env fn fm sc secs ops
  by_cases hi : (insertSections env fn fm sc secs ops).1 = true
  · rw [if_pos hi]
    by_cases hco : env.commitOk = true
    · rw [if_pos hco]
      exact ⟨rows.map DbOp.insertRow ++ [DbOp.commit], by rw [hr]; simp⟩
    · rw [if_neg hco]
      exact ⟨rows.map DbOp.insertRow ++ [DbOp.commit], by rw [hr]; simp⟩
  · rw [if_neg hi]
    exact ⟨rows.map DbOp.insertRow, hr⟩

/-- The Postgres transaction block only appends to the incoming trace. -/
theorem pgTransaction_prefix (env : StoreEnv) (fw : FileWhere)
    (fn : String) (fm sc : Int) (secs : List SectionDetails)
    (ops0 : List DbOp) (mc : Nat) :
    ∃ tail, (pgTransaction env fw fn fm sc secs ops0 mc).2 = ops0 ++ tail := by
  unfold pgTransaction
  by_cases hbg : env.beginOk = true
  · rw [if_pos hbg]
    by_cases hmc : 0 < mc
    · rw [if_pos hmc]
      by_cases hd : env.deleteOk = true
      · rw [if_pos hd]
        obtain ⟨tail, ht⟩ := pgInsertCommit_prefix env fn fm sc secs
          (ops0 ++ [DbOp.beginTxn] ++ [DbOp.deleteRows fw])
        exact ⟨[DbOp.beginTxn] ++ [DbOp.deleteRows fw] ++ tail,
          by rw [ht]; simp⟩
      · rw [if_neg hd]
        exact ⟨[DbOp.beginTxn] ++ [DbOp.deleteRows fw], by simp⟩
    · rw [if_neg hmc]
      obtain ⟨tail, ht⟩ := pgInsertCommit_prefix env fn fm sc secs
        (ops0 ++ [DbOp.beginTxn])
      exact ⟨[DbOp.beginTxn] ++ tail, by rw [ht]; simp⟩
  · rw [if_neg hbg]
    exact ⟨[DbOp.beginTxn], rfl⟩

/-- The SQLite transaction block only appends to the incoming trace. -/
theorem sqliteTransaction_prefix (env : StoreEnv) (fw : FileWhere)
    (fn : String) (fm sc : Int) (secs : List SectionDetails)
    (ops0 : List DbOp) (mc : Nat) :
    ∃ tail,
      (sqliteTransaction env fw fn fm sc secs ops0 mc).2 = ops0 ++ tail := by
  unfold sqliteTransaction
  by_cases hbg : env.beginOk = true
  · rw [if_pos hbg]
    by_cases hmc : 0 < mc
    · rw [if_pos hmc]
      by_cases hd : env.deleteOk = true
      · rw [if_pos hd]
        obtain ⟨tail, ht⟩ := sqliteInsertCommit_prefix env fn fm sc secs
          (ops0 ++ [DbOp.beginTxn] ++ [DbOp.deleteRows fw])
        exact ⟨[DbOp.beginTxn] ++ [DbOp.deleteRows fw] ++ tail,
          by rw [ht]; simp⟩
      · rw [if_neg hd]
        exact ⟨[DbOp.beginTxn] ++ [DbOp.deleteRows fw], by simp⟩
    · rw [if_neg hmc]
      obtain ⟨tail, ht⟩ := sqliteInsertCommit_prefix env fn fm sc secs
        (ops0 ++ [DbOp.beginTxn])
      exact ⟨[DbOp.beginTxn] ++ tail, by rw [ht]; simp⟩
  · rw [if_neg hbg]
    exact ⟨[DbOp.beginTxn], rfl⟩

/-- Claim C10, counterexample.  For the filename whose last # is its FIRST
character, the suffix 5 parses, synchronization proceeds — but the search
clause matches the EXACT filename (baselength 0 falls into the
`filename='%s'` branch, mseedindex.c lines 681-688/1315-1320), not the
empty prefix before the #, so "the prefix before the last # is used for
row matching" fails. -/
theorem C10_claim_counterexample :
    (strtodModel (hashFive.data.drop 1)).consumed ≠ 0 ∧
    (syncSQLiteFileSeries envAllOk false hashFive exFilemodtime exScantime
        secs1).1 = 0 ∧
    (syncSQLiteFileSeries envAllOk false hashFive exFilemodtime exScantime
        secs1).2.head? =
      some (DbOp.selectMatch (FileWhere.exact hashFive 20000000 0)) := by
  decide

/-- Claim C10, amended.  For every filename containing a #, with i the
index of the last #: when the text after it yields no strtod conversion
(value zero and zero characters consumed), both backends fail with -1
before issuing any store operation; when the suffix parses (including
parse results of zero such as the suffix 0), synchronization proceeds, and
provided the prefix before the last # is non-empty the first store
operation is the preservation SELECT whose clause is a LIKE on exactly
that prefix (a filename starting with its last # falls back to exact-name
matching, as the counterexample shows). -/
theorem C10_version_suffix (env : StoreEnv) (fn : String) (fm sc : Int)
    (secs : List SectionDetails) (i : Nat)
    (hi : strrchrHash fn.data = some i) :
    ((strtodModel (fn.data.drop (i + 1))).valueIsZero = true ∧
        (strtodModel (fn.data.drop (i + 1))).consumed = 0 →
      syncPostgresFileSeries env false fn fm sc secs = (-1, []) ∧
      syncSQLiteFileSeries env false fn fm sc secs = (-1, [])) ∧
    (¬ ((strtodModel (fn.data.drop (i + 1))).valueIsZero = true ∧
        (strtodModel (fn.data.drop (i + 1))).consumed = 0) →
      0 < i →
      (fileExtents secs).1 ≠ hpterror → (fileExtents secs).2 ≠ hpterror →
      (syncPostgresFileSeries env false fn fm sc secs).2.head? =
          some (DbOp.selectMatch (FileWhere.likePrefix
            (String.mk (fn.data.take i)) (fileExtents secs).2
            (fileExtents secs).1)) ∧
        (syncSQLiteFileSeries env false fn fm sc secs).2.head? =
          some (DbOp.selectMatch (FileWhere.likePrefix
            (String.mk (fn.data.take i)) (fileExtents secs).2
            (fileExtents secs).1))) := by
  constructor
  · rintro ⟨hv, hc⟩
    have hpv : parseFileVersion fn = none := by
      simp only [parseFileVersion, hi]
      rw [hv, hc]
      simp
    constructor
    · unfold syncPostgresFileSeries
      rw [hpv]
    · unfold syncSQLiteFileSeries
      rw [hpv]
  · intro hnb hipos hext1 hext2
    have hpv : parseFileVersion fn = some i := by
      simp only [parseFileVersion, hi]
      rw [if_neg ?hcond]
      case hcond =>
        rw [Bool.and_eq_true, beq_iff_eq]
        exact hnb
    have hextb : ¬ ((fileExtents secs).1 == hpterror ||
        (fileExtents secs).2 == hpterror) = true := by
      intro hb
      have hb2 : (fileExtents secs).1 = hpterror ∨
          (fileExtents secs).2 = hpterror := by simpa using hb
      rcases hb2 with hb2 | hb2
      · exact hext1 hb2
      · exact hext2 hb2
    have hfw : mkFileWhere i fn (fileExtents secs).2 (fileExtents secs).1 =
        FileWhere.likePrefix (String.mk (fn.data.take i))
          (fileExtents secs).2 (fileExtents secs).1 := by
      unfold mkFileWhere
      rw [if_pos hipos]
    constructor
    · unfold syncPostgresFileSeries
      rw [hpv]
      simp only
      rw [if_neg hextb]
      rw [if_neg (by simp : ¬ (false = true))]
      by_cases hsel : env.selectOk = true
      · rw [if_pos hsel]
        obtain ⟨tail, ht⟩ := pgTransaction_prefix env
          (mkFileWhere i fn (fileExtents secs).2 (fileExtents secs).1) fn
          fm sc (applyMatchRows secs env.matchRows)
          [DbOp.selectMatch (mkFileWhere i fn (fileExtents secs).2
            (fileExtents secs).1)]
          env.matchRows.length
        rw [ht, hfw]
        simp
      · rw [if_neg hsel]
        rw [hfw]
        simp
    · unfold syncSQLiteFileSeries
      rw [hpv]
      simp only
      rw [if_neg hextb]
      rw [if_neg (by simp : ¬ (false = true))]
      by_cases hsel : env.selectOk = true
      · rw [if_pos hsel]
        obtain ⟨tail, ht⟩ := sqliteTransaction_prefix env
          (mkFileWhere i fn (fileExtents secs).2 (fileExtents secs).1) fn
          fm sc (sqliteApplyRows 0 env.matchRows secs)
          [DbOp.selectMatch (mkFileWhere i fn (fileExtents secs).2
            (fileExtents secs).1)]
          env.matchRows.length
        rw [ht, hfw]
        simp
      · rw [if_neg hsel]
        rw [hfw]
        simp

/-- Claim C10, amended, witness: a suffix that does not parse aborts with
no store operation; the parseable suffix 0 proceeds with a LIKE on the
prefix data. -/
theorem C10_version_suffix_witness :
    syncPostgresFileSeries envAllOk false exBadName exFilemodtime exScantime
        secs1 = (-1, []) ∧
    (syncPostgresFileSeries envAllOk false exGoodName exFilemodtime
        exScantime secs1).2.head? =
      some (DbOp.selectMatch (FileWhere.likePrefix
        (String.mk (exGoodName.data.take 4)) (fileExtents secs1).2
        (fileExtents secs1).1)) :=
  ⟨((C10_version_suffix envAllOk exBadName exFilemodtime exScantime secs1 4
      (by decide)).1 (by decide)).1,
   ((C10_version_suffix envAllOk exGoodName exFilemodtime exScantime secs1 4
      (by decide)).2 (by decide) (by decide) (by decide) (by decide)).1⟩

end Mseedindex
